import Mathlib

/-!
Verification of the encrypted password vault in `src/projects/rooster`
(`src/password/v2.rs`) against its natural-language specification.

The Rust code is shallowly embedded: bytes are natural numbers (0‥255),
`SafeString`/`SafeVec` are plain `String`/`List Nat`, and the external
cryptographic and serialization primitives (libsodium scrypt and
HMAC-SHA-512, the `aes` module, serde_json), which are not part of the
sources, are collected in an explicit `Crypto` parameter modelled from the
spec.  Mutating store operations, which take `&mut self` in Rust, return
the post-state explicitly.  Operations that can panic return `Option`,
with `none` standing for the panic.
-/

set_option maxRecDepth 100000

namespace Rooster

/-! ## UTF-8 and lowercase model for Rust strings -/

/-- UTF-8 byte length of one character (Rust `char::len_utf8`). -/
def utf8Len (c : Char) : Nat :=
  if c.toNat < 0x80 then 1
  else if c.toNat < 0x800 then 2
  else if c.toNat < 0x10000 then 3
  else 4

/-- Standard UTF-8 encoding of one character as a byte list. -/
def utf8Encode (c : Char) : List Nat :=
  if c.toNat < 0x80 then [c.toNat]
  else if c.toNat < 0x800 then [0xC0 + c.toNat / 64, 0x80 + c.toNat % 64]
  else if c.toNat < 0x10000 then
    [0xE0 + c.toNat / 4096, 0x80 + c.toNat / 64 % 64, 0x80 + c.toNat % 64]
  else
    [0xF0 + c.toNat / 262144, 0x80 + c.toNat / 4096 % 64, 0x80 + c.toNat / 64 % 64,
     0x80 + c.toNat % 64]

/-- Modelled from the spec: the standard locale-independent Unicode lowercase
mapping used by Rust's `char::to_lowercase` and `str::to_lowercase` (the Rust
standard library is not part of the sources; the spec prescribes "the standard
locale-independent mapping").  A character may lowercase to several
characters.  The table covers ASCII together with the non-ASCII letters
exercised in this development; characters outside the table are caseless and
map to themselves. -/
def charLower (c : Char) : List Char :=
  if 'A' ≤ c ∧ c ≤ 'Z' then [Char.ofNat (c.toNat + 32)]
  else if c = 'Ⱥ' then ['ⱥ']
  else if c = 'Ñ' then ['ñ']
  else [c]

/-- First character of the lowercase expansion (Rust `c.to_lowercase().nth(0)`). -/
def firstLower (c : Char) : Option Char :=
  (charLower c).head?

/-- UTF-8 byte length of a string (Rust `str::len`). -/
def strByteLen (s : String) : Nat :=
  (s.data.map utf8Len).sum

/-- Lowercased string (Rust `str::to_lowercase`), character-wise. -/
def strLower (s : String) : String :=
  String.mk (s.data.flatMap charLower)

/-- UTF-8 byte sequence of a string (Rust `str::as_bytes`). -/
def strBytes (s : String) : List Nat :=
  s.data.flatMap utf8Encode

/-! ## Data model -/

/-- The constants of v2.rs. -/
def IV_LEN : Nat := 16

def KEY_LEN : Nat := 32

def SALT_LEN : Nat := 32

def SIGNATURE_LEN : Nat := 64

def SCRYPT_PARAM_LOG2_N : Nat := 12

def SCRYPT_PARAM_R : Nat := 8

def SCRYPT_PARAM_P : Nat := 1

def VERSION : Nat := 2

/-- One credential record (`Password` in v2.rs).  `SafeString` is modelled as
a plain `String`, `ffi::time_t` as `Int`. -/
structure Password where
  name : String
  username : String
  password : String
  created_at : Int
  updated_at : Int
deriving DecidableEq

/-- The error variants referenced by v2.rs.  The enum itself lives in
`password/mod.rs`, which is not among the sources; the variant names below
are exactly those used in v2.rs, plus `Io` for the `From<io::Error>`
conversions performed by the `?` operator (the spec's `Io` kind). -/
inductive PasswordError where
  | Io
  | OutdatedRoosterBinaryError
  | NeedUpgradeErrorFromV1
  | DecryptionError
  | InvalidJsonError
  | CorruptionError
  | EmptyPasswordError
  | AppExistsError
  | NoSuchAppError
  | EncryptionError
deriving DecidableEq

/-- The store (`PasswordStore` in v2.rs).  `schema.passwords` is inlined as
the `passwords` field (`Schema` is a single-field struct). -/
structure PasswordStore where
  key : List Nat
  scrypt_log2_n : Nat
  scrypt_r : Nat
  scrypt_p : Nat
  salt : List Nat
  passwords : List Password
  master_password : String
deriving DecidableEq

/-! ## Name comparison and lookup (`get_password`) -/

/-- The value the source inspects at index `i` of name `s`:
`s.chars().nth(i).map(|c| c.to_lowercase().nth(0))`.  Note that `i` ranges
over byte positions in the source's loop although `nth` counts characters. -/
def lowerAt (s : String) (i : Nat) : Option (Option Char) :=
  (s.data[i]?).map firstLower

/-- The comparison performed by `PasswordStore::get_password`: the two names
must have equal UTF-8 byte length, and for every `i` below that byte length
the first lowercase character at character position `i` must agree. -/
def nameMatches (pname qname : String) : Bool :=
  strByteLen pname == strByteLen qname &&
    (List.range (strByteLen pname)).all fun i => lowerAt pname i == lowerAt qname i

def PasswordStore.get_password (s : PasswordStore) (name : String) : Option Password :=
  s.passwords.find? fun p => nameMatches p.name name

def PasswordStore.has_password (s : PasswordStore) (name : String) : Bool :=
  (s.get_password name).isSome

/-! ## Mutations -/

/-- `PasswordStore::add_password`.  Returns the result together with the
post-state (`&mut self` in Rust); a failed insertion leaves the store
unchanged. -/
def PasswordStore.add_password (s : PasswordStore) (password : Password) :
    Except PasswordError Unit × PasswordStore :=
  if strByteLen password.password == 0 then (.error .EmptyPasswordError, s)
  else if s.has_password password.name then (.error .AppExistsError, s)
  else (.ok (), { s with passwords := s.passwords ++ [password] })

/-- Removes the first entry whose `name` equals `n` (string equality, the
scan in `delete_password`), returning it and the remaining list. -/
def removeFirstByName (n : String) : List Password → Option (Password × List Password)
  | [] => none
  | p :: rest =>
    if p.name = n then some (p, rest)
    else (removeFirstByName n rest).map fun q => (q.1, p :: q.2)

/-- `PasswordStore::delete_password`.  The `none` branch of the inner scan
corresponds to the source's `unreachable!()`; it cannot fire because the
scanned name was returned by `get_password` from the same list.  It is
mapped to the same error as a missing entry. -/
def PasswordStore.delete_password (s : PasswordStore) (name : String) :
    Except PasswordError Password × PasswordStore :=
  match s.get_password name with
  | none => (.error .NoSuchAppError, s)
  | some p =>
    match removeFirstByName p.name s.passwords with
    | some (q, rest) => (.ok q, { s with passwords := rest })
    | none => (.error .NoSuchAppError, s)

/-- `PasswordStore::change_password`: delete, transform, re-insert; on a
failed insertion the old entry is re-added and the insertion error returned
(the re-insertion itself goes through `?`). -/
def PasswordStore.change_password (s : PasswordStore) (app_name : String)
    (closure : Password → Password) : Except PasswordError Password × PasswordStore :=
  match s.delete_password app_name with
  | (.error e, s') => (.error e, s')
  | (.ok old_password, s1) =>
    match s1.add_password (closure old_password) with
    | (.ok _, s2) => (.ok (closure old_password), s2)
    | (.error err, _) =>
      match s1.add_password old_password with
      | (.ok _, s3) => (.error err, s3)
      | (.error e2, s3) => (.error e2, s3)

/-! ## Listing and search -/

/-- Boolean lexicographic order on character lists by code point.  Rust sorts
the keys (`String`s) by byte-wise lexicographic order, which on UTF-8 agrees
with code-point order. -/
def charListLe : List Char → List Char → Bool
  | [], _ => true
  | _ :: _, [] => false
  | a :: as, b :: bs =>
    if a.toNat < b.toNat then true
    else if b.toNat < a.toNat then false
    else charListLe as bs

/-- Sort key used by `get_all_passwords` and `search_passwords`:
the lowercased name. -/
def lowerKey (p : Password) : List Char :=
  (strLower p.name).data

/-- Comparison `p.name.to_lowercase() ≤ q.name.to_lowercase()`. -/
def lowerNameLe (p q : Password) : Bool :=
  charListLe (lowerKey p) (lowerKey q)

/-- `PasswordStore::get_all_passwords`: all entries sorted (stably, as Rust's
`sort_by_key`) by lowercased name. -/
def PasswordStore.get_all_passwords (s : PasswordStore) : List Password :=
  s.passwords.mergeSort lowerNameLe

/-- First byte index at which `pat` occurs contiguously in `l`
(Rust `str::find` with a string pattern, returning a byte offset). -/
def findSub (pat : List Nat) : List Nat → Option Nat
  | [] => if pat = [] then some 0 else none
  | b :: rest =>
    if pat.isPrefixOf (b :: rest) then some 0
    else (findSub pat rest).map (· + 1)

/-- Rust `str::is_char_boundary` on the byte sequence: the index is the total
length, or it carries a byte that does not continue a multi-byte character.
Slicing `s[i..]` panics when this is false. -/
def isCharBoundary (bytes : List Nat) (i : Nat) : Bool :=
  i == bytes.length ||
    match bytes[i]? with
    | some b => decide (b < 0x80) || decide (0xC0 ≤ b)
    | none => false

/-- The matching loop of `search_passwords` for one (lowercased) app name:
for each query character `c`, search `app_name[last_i..]` for the lowercase
expansion of `c` and advance `last_i` one byte past the start of the match.
Returns `none` when the slice `app_name[last_i..]` would panic because
`last_i` is not a character boundary. -/
def matchLoop (app : List Nat) : List Char → Nat → Option Bool
  | [], _ => some true
  | c :: cs, last_i =>
    if isCharBoundary app last_i then
      match findSub ((charLower c).flatMap utf8Encode) (app.drop last_i) with
      | some ic => matchLoop app cs (last_i + ic + 1)
      | none => some false
    else none

/-- The first phase of `search_passwords`: keep the lowercased names matched
by the query; `none` when the matching loop panics on some name. -/
def searchFilter (query : String) : List String → Option (List String)
  | [] => some []
  | k :: ks =>
    match matchLoop (strBytes k) query.data 0 with
    | none => none
    | some b =>
      match searchFilter query ks with
      | none => none
      | some rest => some (if b then k :: rest else rest)

/-- `PasswordStore::search_passwords`: fuzzy search over lowercased names,
result sorted by lowercased name; `none` models the panic of the byte-index
slicing in the matching loop. -/
def PasswordStore.search_passwords (s : PasswordStore) (name : String) :
    Option (List Password) :=
  match searchFilter name (s.passwords.map fun p => strLower p.name) with
  | none => none
  | some results =>
    some ((s.passwords.filter fun p => results.contains (strLower p.name)).mergeSort
      lowerNameLe)

/-! ## External primitives -/

/-- Modelled from the spec: the external primitives used by v2.rs whose code
is not among the sources — libsodium's
`crypto_pwhash_scryptsalsa208sha256_ll` (scrypt) and `crypto_auth_hmacsha512`
(HMAC-SHA-512, 64-byte tag), the `aes` module (AES-256-CBC with PKCS
padding over byte slices), and the serde_json schema codec composed with the
UTF-8 string conversions.  `aesEncrypt`/`aesDecrypt` return `none` for the
`Err` of the Rust primitives (e.g. a padding failure on decryption).  The
verification primitive `crypto_auth_hmacsha512_verify` is a constant-time
comparison against a recomputed tag and is modelled by comparing
`hmacSha512` output with the stored tag. -/
structure Crypto where
  scrypt : String → List Nat → Nat → Nat → Nat → List Nat
  hmacSha512 : List Nat → List Nat → List Nat
  aesEncrypt : List Nat → List Nat → List Nat → Option (List Nat)
  aesDecrypt : List Nat → List Nat → List Nat → Option (List Nat)
  jsonEncode : List Password → List Nat
  jsonDecode : List Nat → Option (List Password)

/-- `generate_encryption_key` in v2.rs: derive the 256-bit key via scrypt. -/
def generate_encryption_key (c : Crypto) (master_password : String)
    (salt : List Nat) (scrypt_log2_n scrypt_r scrypt_p : Nat) : List Nat :=
  c.scrypt master_password salt scrypt_log2_n scrypt_r scrypt_p

/-- Big-endian byte encoding of a `u32` (byteorder `write_u32::<BigEndian>`).
Values are reduced modulo 2^32 as the Rust type would enforce. -/
def writeU32BE (v : Nat) : List Nat :=
  [v / 16777216 % 256, v / 65536 % 256, v / 256 % 256, v % 256]

/-- `digest_blob_with_metadata` in v2.rs: the message passed to HMAC, namely
`version ‖ log2_n ‖ r ‖ p ‖ iv ‖ salt ‖ blob` with version, r, p as 32-bit
big-endian and log2_n as one byte. -/
def digest_blob_with_metadata (version scrypt_log2_n scrypt_r scrypt_p : Nat)
    (iv salt blob : List Nat) : List Nat :=
  writeU32BE version ++ [scrypt_log2_n % 256] ++ writeU32BE scrypt_r ++
    writeU32BE scrypt_p ++ iv ++ salt ++ blob

/-- `digest` in v2.rs: HMAC-SHA-512 of the metadata-prefixed blob. -/
def digest (c : Crypto) (key : List Nat) (version scrypt_log2_n scrypt_r scrypt_p : Nat)
    (iv salt blob : List Nat) : List Nat :=
  c.hmacSha512 key
    (digest_blob_with_metadata version scrypt_log2_n scrypt_r scrypt_p iv salt blob)

/-! ## Store lifecycle -/

/-- `PasswordStore::new`: fresh store with default scrypt parameters.  The
random salt drawn from `OsRng` is passed explicitly. -/
def PasswordStore.new (c : Crypto) (master_password : String) (salt : List Nat) :
    PasswordStore :=
  { key := generate_encryption_key c master_password salt SCRYPT_PARAM_LOG2_N
      SCRYPT_PARAM_R SCRYPT_PARAM_P
    scrypt_log2_n := SCRYPT_PARAM_LOG2_N
    scrypt_r := SCRYPT_PARAM_R
    scrypt_p := SCRYPT_PARAM_P
    salt := salt
    passwords := []
    master_password := master_password }

/-- `PasswordStore::sync`: serialize, encrypt under a fresh IV (passed
explicitly), and rewrite the file.  The file is modelled by the content it
holds after the `seek(Start(0))` / `set_len(0)` / write / `sync_all`
sequence: the previous content is discarded and replaced by the returned
bytes.  serde_json serialization of the schema cannot fail (the structs are
all encodable), so `jsonEncode` is total. -/
def PasswordStore.sync (c : Crypto) (s : PasswordStore) (iv : List Nat) :
    Except PasswordError (List Nat) :=
  match c.aesEncrypt (c.jsonEncode s.passwords) s.key iv with
  | none => .error .EncryptionError
  | some encrypted =>
    .ok (writeU32BE VERSION ++ [s.scrypt_log2_n % 256] ++ writeU32BE s.scrypt_r ++
      writeU32BE s.scrypt_p ++ s.salt ++ iv ++
      digest c s.key VERSION s.scrypt_log2_n s.scrypt_r s.scrypt_p iv s.salt encrypted ++
      encrypted)

/-- Reading a big-endian `u32` from a byte stream (`read_u32::<BigEndian>`);
`none` is the I/O error on a short stream. -/
def readU32BE : List Nat → Option (Nat × List Nat)
  | b0 :: b1 :: b2 :: b3 :: rest =>
    some (b0 * 16777216 + b1 * 65536 + b2 * 256 + b3, rest)
  | _ => none

/-- Reading one byte (`read_u8`). -/
def readU8 : List Nat → Option (Nat × List Nat)
  | b :: rest => some (b, rest)
  | [] => none

/-- Reading exactly `n` bytes; the source reads into an `n`-byte buffer and
fails with an "unexpected eof" I/O error when fewer bytes are available. -/
def readExact (n : Nat) (l : List Nat) : Option (List Nat × List Nat) :=
  if n ≤ l.length then some (l.take n, l.drop n) else none

/-- `PasswordStore::from_input`: parse the container, derive the key, decrypt
and parse the plaintext, and only then verify the HMAC.  The statement order
mirrors the source: decryption and JSON parsing happen before the signature
check. -/
def PasswordStore.from_input (c : Crypto) (master_password : String)
    (input : List Nat) : Except PasswordError PasswordStore :=
  match readU32BE input with
  | none => .error .Io
  | some (version, r1) =>
    if VERSION < version then .error .OutdatedRoosterBinaryError
    else if version < VERSION then .error .NeedUpgradeErrorFromV1
    else
      match readU8 r1 with
      | none => .error .Io
      | some (scrypt_log2_n, r2) =>
        match readU32BE r2 with
        | none => .error .Io
        | some (scrypt_r, r3) =>
          match readU32BE r3 with
          | none => .error .Io
          | some (scrypt_p, r4) =>
            match readExact SALT_LEN r4 with
            | none => .error .Io
            | some (salt, r5) =>
              match readExact IV_LEN r5 with
              | none => .error .Io
              | some (iv, r6) =>
                match readExact SIGNATURE_LEN r6 with
                | none => .error .Io
                | some (old_signature_mac, blob) =>
                  let key := generate_encryption_key c master_password salt
                    scrypt_log2_n scrypt_r scrypt_p
                  match c.aesDecrypt blob key iv with
                  | none => .error .DecryptionError
                  | some decrypted =>
                    match c.jsonDecode decrypted with
                    | none => .error .InvalidJsonError
                    | some passwords =>
                      if c.hmacSha512 key (digest_blob_with_metadata version
                          scrypt_log2_n scrypt_r scrypt_p iv salt blob) =
                          old_signature_mac then
                        .ok { key := key
                              scrypt_log2_n := scrypt_log2_n
                              scrypt_r := scrypt_r
                              scrypt_p := scrypt_p
                              salt := salt
                              passwords := passwords
                              master_password := master_password }
                      else .error .CorruptionError

/-- `PasswordStore::change_master_password`: re-derive the key from the new
master with the existing salt and parameters.  The source updates only
`self.key`. -/
def PasswordStore.change_master_password (c : Crypto) (s : PasswordStore)
    (master_password : String) : PasswordStore :=
  { s with key := (generate_encryption_key c master_password s.salt s.scrypt_log2_n
      s.scrypt_r s.scrypt_p) }

/-- `PasswordStore::change_scrypt_params`: store the new parameters and
re-derive the key from the retained `master_password` field. -/
def PasswordStore.change_scrypt_params (c : Crypto) (s : PasswordStore)
    (scrypt_log2_n scrypt_r scrypt_p : Nat) : PasswordStore :=
  { s with scrypt_log2_n := scrypt_log2_n
           scrypt_r := scrypt_r
           scrypt_p := scrypt_p
           key := (generate_encryption_key c s.master_password s.salt scrypt_log2_n
             scrypt_r scrypt_p) }

/-! ## Idealized behaviour of the primitives -/

/-- Modelled from the spec: the behaviour the spec ascribes to the external
primitives.  `hmac_len`: HMAC-SHA-512 tags are 64 bytes.  `enc_some`: the
cipher never fails on encryption.  `dec_enc`: decryption inverts encryption
under the same key and IV.  `enc_dec`: a ciphertext decrypts successfully
only under the key and IV it was produced with, and then to the original
plaintext — the idealization of CBC-with-padding in which a wrongly keyed
decryption fails.  `json_rt`: the schema codec round-trips. -/
structure GoodCrypto (c : Crypto) : Prop where
  hmac_len : ∀ key msg, (c.hmacSha512 key msg).length = SIGNATURE_LEN
  enc_some : ∀ pt key iv, (c.aesEncrypt pt key iv).isSome
  dec_enc : ∀ pt key iv ct, c.aesEncrypt pt key iv = some ct →
    c.aesDecrypt ct key iv = some pt
  enc_dec : ∀ pt key iv ct, c.aesEncrypt pt key iv = some ct →
    ∀ key2 iv2 pt2, c.aesDecrypt ct key2 iv2 = some pt2 →
      pt2 = pt ∧ key2 = key ∧ iv2 = iv
  json_rt : ∀ pws, c.jsonDecode (c.jsonEncode pws) = some pws

/-! ## A concrete instance of the primitives

An executable `Crypto` instance used to evaluate the model on concrete
inputs.  The schema codec below is an injective length-prefixed encoding
standing in for serde_json; the cipher embeds key and IV into the
ciphertext so that decryption under a different key or IV fails, realizing
the idealization `GoodCrypto`. -/

/-- Length-prefixed encoding of a string as code points. -/
def encString (s : String) : List Nat :=
  s.data.length :: s.data.map Char.toNat

/-- Inverse of `encString` on a stream. -/
def decString : List Nat → Option (String × List Nat)
  | [] => none
  | n :: rest =>
    if n ≤ rest.length then
      some (String.mk ((rest.take n).map Char.ofNat), rest.drop n)
    else none

/-- Sign-and-magnitude encoding of an integer. -/
def encInt (i : Int) : List Nat :=
  [if i < 0 then 1 else 0, i.natAbs]

/-- Inverse of `encInt` on a stream. -/
def decInt : List Nat → Option (Int × List Nat)
  | sgn :: mag :: rest => some (if sgn = 1 then -(mag : Int) else (mag : Int), rest)
  | _ => none

/-- Field-by-field encoding of one record. -/
def encPassword (p : Password) : List Nat :=
  encString p.name ++ encString p.username ++ encString p.password ++
    encInt p.created_at ++ encInt p.updated_at

/-- Inverse of `encPassword` on a stream. -/
def decPassword (l : List Nat) : Option (Password × List Nat) :=
  match decString l with
  | none => none
  | some (name, r1) =>
    match decString r1 with
    | none => none
    | some (username, r2) =>
      match decString r2 with
      | none => none
      | some (password, r3) =>
        match decInt r3 with
        | none => none
        | some (created_at, r4) =>
          match decInt r4 with
          | none => none
          | some (updated_at, r5) =>
            some ({ name := name, username := username, password := password,
                    created_at := created_at, updated_at := updated_at }, r5)

/-- Count-prefixed encoding of the record list. -/
def encSchema (pws : List Password) : List Nat :=
  pws.length :: pws.flatMap encPassword

/-- Decodes `n` consecutive records. -/
def decPasswords : Nat → List Nat → Option (List Password × List Nat)
  | 0, rest => some ([], rest)
  | n + 1, rest =>
    match decPassword rest with
    | none => none
    | some (p, r1) =>
      match decPasswords n r1 with
      | none => none
      | some (ps, r2) => some (p :: ps, r2)

/-- Inverse of `encSchema`. -/
def decSchema : List Nat → Option (List Password)
  | [] => none
  | n :: rest =>
    match decPasswords n rest with
    | some (ps, []) => some ps
    | _ => none

/-- The concrete primitive instance. -/
def cexCrypto : Crypto where
  scrypt mp salt l r p := mp.data.map Char.toNat ++ [1000 + l, 1000 + r, 1000 + p] ++ salt
  hmacSha512 key msg := ((key.sum + msg.sum + msg.length) % 256) :: List.replicate 63 0
  aesEncrypt pt key iv := some (key.length :: key ++ iv.length :: iv ++ pt)
  aesDecrypt ct key iv :=
    if (key.length :: key ++ iv.length :: iv) <+: ct then
      some (ct.drop (key.length + iv.length + 2))
    else none
  jsonEncode := encSchema
  jsonDecode := decSchema

theorem decString_encString (s : String) (rest : List Nat) :
    decString (encString s ++ rest) = some (s, rest) := by
  obtain ⟨d⟩ := s
  have hlen : d.length = (d.map Char.toNat).length := (List.length_map d Char.toNat).symm
  simp only [encString, decString, List.cons_append]
  rw [hlen, List.take_left, List.drop_left, if_pos (by simp)]
  simp [List.map_map, Function.comp_def, Char.ofNat_toNat]

theorem decInt_encInt (i : Int) (rest : List Nat) :
    decInt (encInt i ++ rest) = some (i, rest) := by
  by_cases h : i < 0
  · have henc : encInt i ++ rest = 1 :: i.natAbs :: rest := by
      simp [encInt, if_pos h]
    rw [henc]
    simp only [decInt, Option.some.injEq, Prod.mk.injEq]
    exact ⟨by rw [if_pos trivial]; omega, trivial⟩
  · have henc : encInt i ++ rest = 0 :: i.natAbs :: rest := by
      simp [encInt, if_neg h]
    rw [henc]
    simp only [decInt, Option.some.injEq, Prod.mk.injEq]
    exact ⟨by rw [if_neg (by omega : ¬(0 = 1))]; omega, trivial⟩

theorem decPassword_encPassword (p : Password) (rest : List Nat) :
    decPassword (encPassword p ++ rest) = some (p, rest) := by
  simp only [decPassword, encPassword, List.append_assoc, decString_encString,
    decInt_encInt]

theorem decPasswords_encPasswords (pws : List Password) (rest : List Nat) :
    decPasswords pws.length (pws.flatMap encPassword ++ rest) = some (pws, rest) := by
  induction pws with
  | nil => simp [decPasswords]
  | cons p ps ih =>
    simp only [List.length_cons, List.flatMap_cons, decPasswords, List.append_assoc,
      decPassword_encPassword, ih]

theorem decSchema_encSchema (pws : List Password) :
    decSchema (encSchema pws) = some pws := by
  have h := decPasswords_encPasswords pws []
  simp only [List.append_nil] at h
  simp [decSchema, encSchema, h]

/-- The concrete instance realizes the idealized behaviour. -/
theorem goodCrypto_cexCrypto : GoodCrypto cexCrypto := by
  constructor
  · intro key msg
    simp [cexCrypto, SIGNATURE_LEN]
  · intro pt key iv
    simp [cexCrypto]
  · intro pt key iv ct hct
    simp only [cexCrypto, Option.some.injEq] at hct
    subst hct
    simp only [cexCrypto]
    rw [if_pos]
    · congr 1
      have hassoc : key.length :: key ++ iv.length :: iv ++ pt =
          (key.length :: key ++ iv.length :: iv) ++ pt := by simp
      have hl : (key.length :: key ++ iv.length :: iv).length =
          key.length + iv.length + 2 := by simp; omega
      rw [hassoc, ← hl, List.drop_left]
    · exact ⟨pt, by simp⟩
  · intro pt key iv ct hct key2 iv2 pt2 hdec
    simp only [cexCrypto, Option.some.injEq] at hct
    subst hct
    simp only [cexCrypto] at hdec
    split at hdec
    case isFalse => exact absurd hdec (by simp)
    case isTrue hpre =>
      simp only [List.cons_append, List.append_assoc] at hpre
      rw [List.cons_prefix_cons] at hpre
      obtain ⟨hlen, t, ht⟩ := hpre
      rw [List.append_assoc] at ht
      obtain ⟨hk, ht⟩ := List.append_inj ht hlen
      rw [List.cons_append] at ht
      obtain ⟨hil, ht⟩ := List.cons.inj ht
      obtain ⟨hiv, -⟩ := List.append_inj ht hil
      refine ⟨?_, hk, hiv⟩
      simp only [Option.some.injEq] at hdec
      subst hdec
      rw [hlen, hil]
      have hassoc : key.length :: key ++ iv.length :: iv ++ pt =
          (key.length :: key ++ iv.length :: iv) ++ pt := by simp
      have hl : (key.length :: key ++ iv.length :: iv).length =
          key.length + iv.length + 2 := by simp; omega
      rw [hassoc, ← hl, List.drop_left]
  · intro pws
    exact decSchema_encSchema pws

/-! ## Parsing lemmas for the container -/

theorem readU32BE_writeU32BE (v : Nat) (hv : v < 4294967296) (rest : List Nat) :
    readU32BE (writeU32BE v ++ rest) = some (v, rest) := by
  simp only [writeU32BE, List.cons_append, List.nil_append, readU32BE,
    Option.some.injEq, Prod.mk.injEq]
  exact ⟨by omega, trivial⟩

theorem readExact_append (xs rest : List Nat) :
    readExact xs.length (xs ++ rest) = some (xs, rest) := by
  simp [readExact, List.take_left, List.drop_left]

theorem readU8_cons (b : Nat) (rest : List Nat) : readU8 (b :: rest) = some (b, rest) :=
  rfl

/-- Opening the bytes written by `sync` with the master password whose derived
key is the store's key recovers the observable store state.  The hypotheses
are the store's own well-formedness (32-byte salt, parameters in range, key
derived from the given master) plus a 16-byte IV and the idealized behaviour
of the primitives. -/
theorem from_input_sync_roundtrip (c : Crypto) (hc : GoodCrypto c)
    (s : PasswordStore) (master : String) (iv bytes : List Nat)
    (hkey : s.key = c.scrypt master s.salt s.scrypt_log2_n s.scrypt_r s.scrypt_p)
    (hsalt : s.salt.length = SALT_LEN) (hiv : iv.length = IV_LEN)
    (hln : s.scrypt_log2_n < 256) (hr : s.scrypt_r < 4294967296)
    (hp : s.scrypt_p < 4294967296)
    (hsync : s.sync c iv = .ok bytes) :
    PasswordStore.from_input c master bytes = .ok
      { key := s.key
        scrypt_log2_n := s.scrypt_log2_n
        scrypt_r := s.scrypt_r
        scrypt_p := s.scrypt_p
        salt := s.salt
        passwords := s.passwords
        master_password := master } := by
  obtain ⟨encrypted, henc⟩ :=
    Option.isSome_iff_exists.mp (hc.enc_some (c.jsonEncode s.passwords) s.key iv)
  unfold PasswordStore.sync at hsync
  rw [henc] at hsync
  simp only [Except.ok.injEq] at hsync
  subst hsync
  have hsaltRead : ∀ R, readExact SALT_LEN (s.salt ++ R) = some (s.salt, R) := by
    intro R; rw [← hsalt]; exact readExact_append _ _
  have hivRead : ∀ R, readExact IV_LEN (iv ++ R) = some (iv, R) := by
    intro R; rw [← hiv]; exact readExact_append _ _
  have hmacLen : (c.hmacSha512 s.key (digest_blob_with_metadata VERSION
      s.scrypt_log2_n s.scrypt_r s.scrypt_p iv s.salt encrypted)).length =
      SIGNATURE_LEN := hc.hmac_len _ _
  have hmacRead : ∀ R, readExact SIGNATURE_LEN
      (c.hmacSha512 s.key (digest_blob_with_metadata VERSION s.scrypt_log2_n
        s.scrypt_r s.scrypt_p iv s.salt encrypted) ++ R) =
      some (c.hmacSha512 s.key (digest_blob_with_metadata VERSION s.scrypt_log2_n
        s.scrypt_r s.scrypt_p iv s.salt encrypted), R) := by
    intro R; rw [← hmacLen]; exact readExact_append _ _
  have hdec : c.aesDecrypt encrypted s.key iv = some (c.jsonEncode s.passwords) :=
    hc.dec_enc _ _ _ _ henc
  simp only [PasswordStore.from_input, List.append_assoc, List.singleton_append,
    List.cons_append, List.nil_append,
    readU32BE_writeU32BE VERSION (by decide),
    readU32BE_writeU32BE s.scrypt_r hr, readU32BE_writeU32BE s.scrypt_p hp,
    readU8_cons, Nat.mod_eq_of_lt hln, hsaltRead, hivRead, hmacRead,
    generate_encryption_key, ← hkey, hdec, hc.json_rt, digest,
    lt_self_iff_false, if_false, if_true]

/-- Evaluation of `from_input` on a well-formed container decomposed into its
fields: after the header is parsed, the code first decrypts, then parses the
plaintext, and only then compares the MAC. -/
theorem from_input_decomposed (c : Crypto) (master : String) (l r p : Nat)
    (salt iv mac blob : List Nat) (hr : r < 4294967296)
    (hp : p < 4294967296) (hsalt : salt.length = SALT_LEN)
    (hiv : iv.length = IV_LEN) (hmac : mac.length = SIGNATURE_LEN) :
    PasswordStore.from_input c master (writeU32BE VERSION ++ [l] ++ writeU32BE r ++
      writeU32BE p ++ salt ++ iv ++ mac ++ blob) =
    match c.aesDecrypt blob (c.scrypt master salt l r p) iv with
    | none => .error .DecryptionError
    | some decrypted =>
      match c.jsonDecode decrypted with
      | none => .error .InvalidJsonError
      | some passwords =>
        if c.hmacSha512 (c.scrypt master salt l r p)
            (digest_blob_with_metadata VERSION l r p iv salt blob) = mac then
          .ok { key := c.scrypt master salt l r p
                scrypt_log2_n := l
                scrypt_r := r
                scrypt_p := p
                salt := salt
                passwords := passwords
                master_password := master }
        else .error .CorruptionError := by
  have hsaltRead : ∀ R, readExact SALT_LEN (salt ++ R) = some (salt, R) := by
    intro R; rw [← hsalt]; exact readExact_append _ _
  have hivRead : ∀ R, readExact IV_LEN (iv ++ R) = some (iv, R) := by
    intro R; rw [← hiv]; exact readExact_append _ _
  have hmacRead : ∀ R, readExact SIGNATURE_LEN (mac ++ R) = some (mac, R) := by
    intro R; rw [← hmac]; exact readExact_append _ _
  simp only [PasswordStore.from_input, List.append_assoc, List.singleton_append,
    List.cons_append, List.nil_append,
    readU32BE_writeU32BE VERSION (by decide),
    readU32BE_writeU32BE r hr, readU32BE_writeU32BE p hp,
    readU8_cons, hsaltRead, hivRead, hmacRead, generate_encryption_key,
    lt_self_iff_false, if_false]

/-- Opening the bytes written by `sync` under a master password whose derived
key differs fails with `DecryptionError`: the wrongly keyed decryption runs
first and its failure is reported, before the MAC is ever compared. -/
theorem from_input_sync_wrong_key (c : Crypto) (hc : GoodCrypto c)
    (s : PasswordStore) (master2 : String) (iv bytes : List Nat)
    (hsalt : s.salt.length = SALT_LEN) (hiv : iv.length = IV_LEN)
    (hln : s.scrypt_log2_n < 256) (hr : s.scrypt_r < 4294967296)
    (hp : s.scrypt_p < 4294967296)
    (hkeyne : c.scrypt master2 s.salt s.scrypt_log2_n s.scrypt_r s.scrypt_p ≠ s.key)
    (hsync : s.sync c iv = .ok bytes) :
    PasswordStore.from_input c master2 bytes = .error .DecryptionError := by
  obtain ⟨encrypted, henc⟩ :=
    Option.isSome_iff_exists.mp (hc.enc_some (c.jsonEncode s.passwords) s.key iv)
  unfold PasswordStore.sync at hsync
  rw [henc] at hsync
  simp only [Except.ok.injEq] at hsync
  subst hsync
  have hdecNone : c.aesDecrypt encrypted
      (c.scrypt master2 s.salt s.scrypt_log2_n s.scrypt_r s.scrypt_p) iv = none := by
    cases hd : c.aesDecrypt encrypted
        (c.scrypt master2 s.salt s.scrypt_log2_n s.scrypt_r s.scrypt_p) iv with
    | none => rfl
    | some pt2 =>
      obtain ⟨-, hk2, -⟩ := hc.enc_dec _ _ _ _ henc _ _ _ hd
      exact absurd hk2 hkeyne
  have hmod : s.scrypt_log2_n % 256 = s.scrypt_log2_n := Nat.mod_eq_of_lt hln
  have h := from_input_decomposed c master2 s.scrypt_log2_n s.scrypt_r s.scrypt_p
    s.salt iv (digest c s.key VERSION s.scrypt_log2_n s.scrypt_r s.scrypt_p iv
      s.salt encrypted) encrypted hr hp hsalt hiv (hc.hmac_len _ _)
  rw [hmod, h, hdecNone]

/-! ## Concrete values for witnesses and counterexamples -/

def saltZeros : List Nat := List.replicate SALT_LEN 0

def ivZeros : List Nat := List.replicate IV_LEN 0

def macZeros : List Nat := List.replicate SIGNATURE_LEN 0

/-- A container whose MAC field is all zeros (not the correct tag) and whose
ciphertext is junk that fails decryption. -/
def cexInput1 : List Nat :=
  writeU32BE VERSION ++ [12] ++ writeU32BE 8 ++ writeU32BE 1 ++ saltZeros ++
    ivZeros ++ macZeros ++ [9, 9, 9]

/-- A store with master password "m" holding one entry. -/
def cexStore3 : PasswordStore :=
  ((PasswordStore.new cexCrypto "m" saltZeros).add_password
    { name := "YouTube", username := "ux", password := "p",
      created_at := 1, updated_at := 1 }).2

def cexBytes3 : List Nat := (cexStore3.sync cexCrypto ivZeros).toOption.getD []

/-- An empty store with master password "a". -/
def cexStore4 : PasswordStore := PasswordStore.new cexCrypto "a" saltZeros

def cexBytes4 : List Nat := (cexStore4.sync cexCrypto ivZeros).toOption.getD []

/-! ## Claim C1 -/

/-- C1, counterexample.  The claim states that when the stored MAC does not
verify, the mismatch is detected before any decryption and reported as the
MAC-failure kind (`CorruptionError`, the spec's
`WrongMasterPasswordOrCorruption`).  On `cexInput1` the stored all-zero MAC
does not verify under the derived key, yet `from_input` returns
`DecryptionError`: the code decrypted first and reported the decryption
failure, never reaching the MAC comparison. -/
theorem C1_counterexample :
    cexCrypto.hmacSha512 (cexCrypto.scrypt "m" saltZeros 12 8 1)
      (digest_blob_with_metadata VERSION 12 8 1 ivZeros saltZeros [9, 9, 9]) ≠
      macZeros ∧
    PasswordStore.from_input cexCrypto "m" cexInput1 = .error .DecryptionError ∧
    PasswordError.DecryptionError ≠ PasswordError.CorruptionError := by
  refine ⟨by decide, ?_, by decide⟩
  rfl

/-- C1, amended.  In `from_input`, decryption and JSON parsing of the
plaintext happen before the MAC comparison: when the wrongly keyed or
corrupted decryption fails, the result is `DecryptionError` regardless of the
MAC; a MAC mismatch is reported (as `CorruptionError`) only when decryption
and parsing both succeed. -/
theorem C1_amended_decrypt_before_mac (c : Crypto) (master : String)
    (l r p : Nat) (salt iv mac blob : List Nat) (hr : r < 4294967296)
    (hp : p < 4294967296) (hsalt : salt.length = SALT_LEN)
    (hiv : iv.length = IV_LEN) (hmac : mac.length = SIGNATURE_LEN) :
    (c.aesDecrypt blob (c.scrypt master salt l r p) iv = none →
      PasswordStore.from_input c master (writeU32BE VERSION ++ [l] ++
        writeU32BE r ++ writeU32BE p ++ salt ++ iv ++ mac ++ blob) =
        .error .DecryptionError) ∧
    (∀ pt pws, c.aesDecrypt blob (c.scrypt master salt l r p) iv = some pt →
      c.jsonDecode pt = some pws →
      c.hmacSha512 (c.scrypt master salt l r p)
        (digest_blob_with_metadata VERSION l r p iv salt blob) ≠ mac →
      PasswordStore.from_input c master (writeU32BE VERSION ++ [l] ++
        writeU32BE r ++ writeU32BE p ++ salt ++ iv ++ mac ++ blob) =
        .error .CorruptionError) := by
  constructor
  · intro hdec
    rw [from_input_decomposed c master l r p salt iv mac blob hr hp hsalt hiv hmac,
      hdec]
  · intro pt pws hdec hjson hne
    rw [from_input_decomposed c master l r p salt iv mac blob hr hp hsalt hiv hmac,
      hdec]
    simp only [hjson]
    exact if_neg hne

/-- C1, witness for the amended theorem at a concrete input. -/
theorem C1_witness :
    PasswordStore.from_input cexCrypto "w" (writeU32BE VERSION ++ [12] ++
      writeU32BE 8 ++ writeU32BE 1 ++ saltZeros ++ ivZeros ++ macZeros ++ [7]) =
      .error .DecryptionError :=
  (C1_amended_decrypt_before_mac cexCrypto "w" 12 8 1 saltZeros ivZeros macZeros
    [7] (by decide) (by decide) (by decide) (by decide) (by decide)).1 (by decide)

/-! ## Claim C2 -/

/-- C2, counterexample.  The claim states that `change_master_password`
records the new master so that a later `change_scrypt_params` derives the key
from the most recently set master.  Concretely, after
`change_master_password "b"` on a store created with master "a", the retained
master password is still "a", and `change_scrypt_params 13 8 1` derives the
key from "a", not from "b". -/
theorem C2_counterexample :
    ((PasswordStore.new cexCrypto "a" saltZeros).change_master_password cexCrypto
      "b").master_password ≠ "b" ∧
    (((PasswordStore.new cexCrypto "a" saltZeros).change_master_password cexCrypto
      "b").change_scrypt_params cexCrypto 13 8 1).key ≠
      cexCrypto.scrypt "b" saltZeros 13 8 1 := by
  constructor
  · decide
  · decide

/-- C2, amended.  `change_master_password(new_master)` re-derives the key
from `(new_master, existing salt, existing KDF parameters)` but leaves the
retained `master_password` field unchanged, so a subsequent
`change_scrypt_params` re-derives the key from the originally retained master
password, not from `new_master`. -/
theorem C2_amended_master_not_recorded (c : Crypto) (s : PasswordStore)
    (new_master : String) (l r p : Nat) :
    (s.change_master_password c new_master).key =
      c.scrypt new_master s.salt s.scrypt_log2_n s.scrypt_r s.scrypt_p ∧
    (s.change_master_password c new_master).master_password = s.master_password ∧
    ((s.change_master_password c new_master).change_scrypt_params c l r p).key =
      c.scrypt s.master_password s.salt l r p :=
  ⟨rfl, rfl, rfl⟩

/-! ## Claim C3 -/

/-- C3.  Round-trip: opening the bytes produced by `sync` with the same
master password succeeds and yields the same observable state (entry list,
salt, KDF parameters).  The hypotheses are the store's well-formedness (its
key is derived from the given master over its salt and parameters, the salt
is 32 bytes, the parameters fit their integer types), a 16-byte IV, and the
idealized behaviour `GoodCrypto` of the external primitives. -/
theorem C3_roundtrip (c : Crypto) (hc : GoodCrypto c) (s : PasswordStore)
    (master : String) (iv bytes : List Nat)
    (hkey : s.key = c.scrypt master s.salt s.scrypt_log2_n s.scrypt_r s.scrypt_p)
    (hsalt : s.salt.length = SALT_LEN) (hiv : iv.length = IV_LEN)
    (hln : s.scrypt_log2_n < 256) (hr : s.scrypt_r < 4294967296)
    (hp : s.scrypt_p < 4294967296)
    (hsync : s.sync c iv = .ok bytes) :
    ∃ s2, PasswordStore.from_input c master bytes = .ok s2 ∧
      s2.passwords = s.passwords ∧ s2.salt = s.salt ∧
      s2.scrypt_log2_n = s.scrypt_log2_n ∧ s2.scrypt_r = s.scrypt_r ∧
      s2.scrypt_p = s.scrypt_p :=
  ⟨_, from_input_sync_roundtrip c hc s master iv bytes hkey hsalt hiv hln hr hp
    hsync, rfl, rfl, rfl, rfl, rfl⟩

/-- C3, witness: the round-trip evaluated on a concrete one-entry store. -/
theorem C3_witness :
    ∃ s2, PasswordStore.from_input cexCrypto "m" cexBytes3 = .ok s2 ∧
      s2.passwords = cexStore3.passwords ∧ s2.salt = cexStore3.salt ∧
      s2.scrypt_log2_n = cexStore3.scrypt_log2_n ∧
      s2.scrypt_r = cexStore3.scrypt_r ∧ s2.scrypt_p = cexStore3.scrypt_p :=
  C3_roundtrip cexCrypto goodCrypto_cexCrypto cexStore3 "m" ivZeros cexBytes3
    rfl (by decide) (by decide) (by decide) (by decide) (by decide) rfl

/-! ## Claim C4 -/

/-- C4, counterexample.  The claim states that opening with a wrong master
password fails with the MAC-mismatch kind (`CorruptionError`, the spec's
`WrongMasterPasswordOrCorruption`) and no other kind.  Opening the synced
bytes of a store created with master "a" under master "b" instead fails with
`DecryptionError`: the wrongly keyed decryption runs first and its failure is
reported, so the MAC comparison is never reached. -/
theorem C4_counterexample :
    PasswordStore.from_input cexCrypto "b" cexBytes4 = .error .DecryptionError ∧
    PasswordError.DecryptionError ≠ PasswordError.CorruptionError := by
  exact ⟨by rfl, by decide⟩

/-- C4, amended.  Opening the synced bytes under a master password whose
derived key differs from the store's key fails, but with `DecryptionError`
(the failed-decryption kind), not the MAC-mismatch kind `CorruptionError`:
under the idealized cipher the wrongly keyed decryption fails and that
failure is reported before the MAC is compared. -/
theorem C4_amended_wrong_master (c : Crypto) (hc : GoodCrypto c)
    (s : PasswordStore) (master2 : String) (iv bytes : List Nat)
    (hsalt : s.salt.length = SALT_LEN) (hiv : iv.length = IV_LEN)
    (hln : s.scrypt_log2_n < 256) (hr : s.scrypt_r < 4294967296)
    (hp : s.scrypt_p < 4294967296)
    (hkeyne : c.scrypt master2 s.salt s.scrypt_log2_n s.scrypt_r s.scrypt_p ≠ s.key)
    (hsync : s.sync c iv = .ok bytes) :
    PasswordStore.from_input c master2 bytes = .error .DecryptionError ∧
    PasswordError.DecryptionError ≠ PasswordError.CorruptionError :=
  ⟨from_input_sync_wrong_key c hc s master2 iv bytes hsalt hiv hln hr hp hkeyne
    hsync, by decide⟩

/-- C4, witness for the amended theorem at a concrete store and password. -/
theorem C4_witness :
    PasswordStore.from_input cexCrypto "x" cexBytes4 = .error .DecryptionError ∧
    PasswordError.DecryptionError ≠ PasswordError.CorruptionError :=
  C4_amended_wrong_master cexCrypto goodCrypto_cexCrypto cexStore4 "x" ivZeros
    cexBytes4 (by decide) (by decide) (by decide) (by decide) (by decide)
    (by decide) rfl

/-! ## Claim C6 -/

/-- C6.  The byte sequence produced by `sync` is exactly: the version as
32-bit big-endian, `log2_n` as one byte, `r` and `p` as 32-bit big-endian,
the salt, the fresh IV, the 64-byte MAC, then the ciphertext; and the MAC is
the HMAC-SHA-512, under the store key, of
`version ‖ log2_n ‖ r ‖ p ‖ iv ‖ salt ‖ ciphertext` with the same integer
widths and byte order (note the IV precedes the salt in the MAC message,
while the salt precedes the IV on disk).  The seek-to-0/truncate of the file
is modelled by the file content being exactly these bytes afterwards. -/
theorem C6_sync_layout (c : Crypto) (s : PasswordStore) (iv ct : List Nat)
    (henc : c.aesEncrypt (c.jsonEncode s.passwords) s.key iv = some ct) :
    s.sync c iv = .ok
      ([VERSION / 16777216 % 256, VERSION / 65536 % 256, VERSION / 256 % 256,
        VERSION % 256] ++
       [s.scrypt_log2_n % 256] ++
       [s.scrypt_r / 16777216 % 256, s.scrypt_r / 65536 % 256,
        s.scrypt_r / 256 % 256, s.scrypt_r % 256] ++
       [s.scrypt_p / 16777216 % 256, s.scrypt_p / 65536 % 256,
        s.scrypt_p / 256 % 256, s.scrypt_p % 256] ++
       s.salt ++ iv ++
       c.hmacSha512 s.key
         ([VERSION / 16777216 % 256, VERSION / 65536 % 256, VERSION / 256 % 256,
           VERSION % 256] ++
          [s.scrypt_log2_n % 256] ++
          [s.scrypt_r / 16777216 % 256, s.scrypt_r / 65536 % 256,
           s.scrypt_r / 256 % 256, s.scrypt_r % 256] ++
          [s.scrypt_p / 16777216 % 256, s.scrypt_p / 65536 % 256,
           s.scrypt_p / 256 % 256, s.scrypt_p % 256] ++
          iv ++ s.salt ++ ct) ++
       ct) := by
  unfold PasswordStore.sync
  rw [henc]
  rfl

/-- C6, witness at a concrete store and IV. -/
theorem C6_witness :
    cexStore4.sync cexCrypto ivZeros = .ok
      ([VERSION / 16777216 % 256, VERSION / 65536 % 256, VERSION / 256 % 256,
        VERSION % 256] ++
       [cexStore4.scrypt_log2_n % 256] ++
       [cexStore4.scrypt_r / 16777216 % 256, cexStore4.scrypt_r / 65536 % 256,
        cexStore4.scrypt_r / 256 % 256, cexStore4.scrypt_r % 256] ++
       [cexStore4.scrypt_p / 16777216 % 256, cexStore4.scrypt_p / 65536 % 256,
        cexStore4.scrypt_p / 256 % 256, cexStore4.scrypt_p % 256] ++
       cexStore4.salt ++ ivZeros ++
       cexCrypto.hmacSha512 cexStore4.key
         ([VERSION / 16777216 % 256, VERSION / 65536 % 256, VERSION / 256 % 256,
           VERSION % 256] ++
          [cexStore4.scrypt_log2_n % 256] ++
          [cexStore4.scrypt_r / 16777216 % 256, cexStore4.scrypt_r / 65536 % 256,
           cexStore4.scrypt_r / 256 % 256, cexStore4.scrypt_r % 256] ++
          [cexStore4.scrypt_p / 16777216 % 256, cexStore4.scrypt_p / 65536 % 256,
           cexStore4.scrypt_p / 256 % 256, cexStore4.scrypt_p % 256] ++
          ivZeros ++ cexStore4.salt ++
          ((cexCrypto.aesEncrypt (cexCrypto.jsonEncode cexStore4.passwords)
            cexStore4.key ivZeros).getD [])) ++
       ((cexCrypto.aesEncrypt (cexCrypto.jsonEncode cexStore4.passwords)
         cexStore4.key ivZeros).getD [])) :=
  C6_sync_layout cexCrypto cexStore4 ivZeros _ rfl

/-! ## Properties of the name comparison -/

theorem charEq_of_toNat_eq {a b : Char} (h : a.toNat = b.toNat) : a = b :=
  Char.eq_of_val_eq (UInt32.toNat.inj h)

theorem nameMatches_true_iff (a b : String) :
    nameMatches a b = true ↔
      strByteLen a = strByteLen b ∧ ∀ i < strByteLen a, lowerAt a i = lowerAt b i := by
  simp [nameMatches, List.all_eq_true, List.mem_range]

theorem nameMatches_refl (n : String) : nameMatches n n = true := by
  rw [nameMatches_true_iff]
  exact ⟨rfl, fun i _ => rfl⟩

theorem nameMatches_symm (a b : String) : nameMatches a b = nameMatches b a := by
  rw [Bool.eq_iff_iff, nameMatches_true_iff, nameMatches_true_iff]
  constructor
  · rintro ⟨hl, hi⟩
    exact ⟨hl.symm, fun i hi2 => (hi i (hl ▸ hi2)).symm⟩
  · rintro ⟨hl, hi⟩
    exact ⟨hl.symm, fun i hi2 => (hi i (hl ▸ hi2)).symm⟩

/-- Two entries matching the same query match each other. -/
theorem nameMatches_trans_query {a b q : String} (ha : nameMatches a q = true)
    (hb : nameMatches b q = true) : nameMatches a b = true := by
  rw [nameMatches_true_iff] at ha hb ⊢
  obtain ⟨hal, hai⟩ := ha
  obtain ⟨hbl, hbi⟩ := hb
  refine ⟨hal.trans hbl.symm, fun i hi => ?_⟩
  rw [hai i hi, hbi i (by omega)]

/-! ## find? and removal helpers -/

theorem find?_split {α : Type} (p : α → Bool) {l : List α} {a : α}
    (h : l.find? p = some a) :
    ∃ pre post, l = pre ++ a :: post ∧ ∀ b ∈ pre, p b = false := by
  induction l with
  | nil => simp [List.find?] at h
  | cons x xs ih =>
    rw [List.find?_cons] at h
    split at h
    next hx =>
      injection h with h
      subst h
      exact ⟨[], xs, rfl, by simp⟩
    next hx =>
      obtain ⟨pre, post, heq, hpre⟩ := ih h
      refine ⟨x :: pre, post, by rw [List.cons_append, heq], ?_⟩
      intro b hb
      rcases List.mem_cons.mp hb with hb | hb
      · subst hb
        exact hx
      · exact hpre b hb

/-- `find?` is invariant under permutation when at most one element can
satisfy the predicate. -/
theorem find?_perm_of_unique {α : Type} {l l' : List α} (h : l.Perm l')
    (p : α → Bool) (huniq : ∀ a ∈ l, ∀ b ∈ l, p a = true → p b = true → a = b) :
    l.find? p = l'.find? p := by
  cases hf : l.find? p with
  | none =>
    rw [List.find?_eq_none] at hf
    symm
    rw [List.find?_eq_none]
    intro x hx
    exact hf x (h.mem_iff.mpr hx)
  | some a =>
    have ha := List.find?_some hf
    have hmem := List.mem_of_find?_eq_some hf
    cases hf' : l'.find? p with
    | none =>
      rw [List.find?_eq_none] at hf'
      exact absurd ha (hf' a (h.mem_iff.mp hmem))
    | some b =>
      have hb := List.find?_some hf'
      have hmemb := h.mem_iff.mpr (List.mem_of_find?_eq_some hf')
      rw [huniq a hmem b hmemb ha hb]

theorem removeFirstByName_append (pre post : List Password) (q : Password)
    (hpre : ∀ p ∈ pre, p.name ≠ q.name) :
    removeFirstByName q.name (pre ++ q :: post) = some (q, pre ++ post) := by
  induction pre with
  | nil =>
    show removeFirstByName q.name (q :: post) = some (q, post)
    rw [show removeFirstByName q.name (q :: post) =
      (if q.name = q.name then some (q, post)
       else (removeFirstByName q.name post).map fun r =>
         (r.1, q :: r.2)) from rfl,
      if_pos rfl]
  | cons x xs ih =>
    rw [List.cons_append]
    rw [show removeFirstByName q.name (x :: (xs ++ q :: post)) =
      (if x.name = q.name then some (x, xs ++ q :: post)
       else (removeFirstByName q.name (xs ++ q :: post)).map fun r =>
         (r.1, x :: r.2)) from rfl]
    rw [if_neg (hpre x (List.mem_cons_self x xs))]
    rw [ih fun p hp => hpre p (List.mem_cons_of_mem x hp)]
    rfl

theorem removeFirstByName_sublist {n : String} {l rest : List Password}
    {q : Password} (h : removeFirstByName n l = some (q, rest)) :
    rest.Sublist l := by
  induction l generalizing rest with
  | nil => exact Option.noConfusion h
  | cons x xs ih =>
    rw [removeFirstByName] at h
    split at h
    · injection h with h
      obtain ⟨-, h2⟩ := Prod.mk.inj h
      subst h2
      exact List.sublist_cons_self x xs
    · cases hr : removeFirstByName n xs with
      | none =>
        rw [hr] at h
        exact Option.noConfusion h
      | some qr =>
        obtain ⟨q1, rest1⟩ := qr
        rw [hr] at h
        injection h with h
        obtain ⟨hq, hrest⟩ := Prod.mk.inj h
        subst hq
        subst hrest
        exact (ih hr).cons₂ x

/-! ## The uniqueness invariant -/

/-- The entry lists whose names are pairwise distinct under the comparison
actually performed by the code (`nameMatches`). -/
def UniqueNames (l : List Password) : Prop :=
  l.Pairwise fun a b => nameMatches a.name b.name = false

theorem has_password_false_iff (s : PasswordStore) (name : String) :
    s.has_password name = false ↔
      ∀ p ∈ s.passwords, nameMatches p.name name = false := by
  unfold PasswordStore.has_password PasswordStore.get_password
  cases hf : s.passwords.find? fun p => nameMatches p.name name with
  | none =>
    rw [List.find?_eq_none] at hf
    simp only [Option.isSome_none, true_iff]
    exact fun p hp => Bool.eq_false_iff.mpr (hf p hp)
  | some a =>
    have ha := List.find?_some hf
    have hmem := List.mem_of_find?_eq_some hf
    constructor
    · intro hcontra
      exact absurd hcontra (by simp)
    · intro hall
      rw [hall a hmem] at ha
      exact absurd ha (by simp)

theorem uniqueNames_add (s : PasswordStore) (pw : Password)
    (h : UniqueNames s.passwords) : UniqueNames ((s.add_password pw).2).passwords := by
  unfold PasswordStore.add_password
  split
  · exact h
  split
  next hhas =>
    exact h
  next hhas =>
    have hfalse : ∀ p ∈ s.passwords, nameMatches p.name pw.name = false :=
      (has_password_false_iff s pw.name).mp (Bool.eq_false_iff.mpr hhas)
    refine List.pairwise_append.mpr ⟨h, List.pairwise_singleton _ _, ?_⟩
    intro a ha b hb
    rw [List.mem_singleton.mp hb]
    exact hfalse a ha

theorem uniqueNames_delete (s : PasswordStore) (name : String)
    (h : UniqueNames s.passwords) :
    UniqueNames ((s.delete_password name).2).passwords := by
  unfold PasswordStore.delete_password
  split
  · exact h
  split
  next q rest hr => exact List.Pairwise.sublist (removeFirstByName_sublist hr) h
  next => exact h

theorem uniqueNames_change (s : PasswordStore) (name : String)
    (f : Password → Password) (h : UniqueNames s.passwords) :
    UniqueNames ((s.change_password name f).2).passwords := by
  unfold PasswordStore.change_password
  split
  next e s1 hd =>
    have := uniqueNames_delete s name h
    rw [hd] at this
    exact this
  next old s1 hd =>
    have h1 : UniqueNames s1.passwords := by
      have := uniqueNames_delete s name h
      rw [hd] at this
      exact this
    have hadd : ∀ pw, UniqueNames ((s1.add_password pw).2).passwords := fun pw =>
      uniqueNames_add s1 pw h1
    rcases ha : s1.add_password (f old) with ⟨r2, s2⟩
    have h2 : UniqueNames s2.passwords := by
      have := hadd (f old)
      rw [ha] at this
      exact this
    cases r2 with
    | ok u => exact h2
    | error err =>
      rcases ha2 : s1.add_password old with ⟨r3, s3⟩
      have h3 : UniqueNames s3.passwords := by
        have := hadd old
        rw [ha2] at this
        exact this
      cases r3 with
      | ok u => exact h3
      | error e2 => exact h3

/-- Whatever master password is supplied, a successful open of sync output
recovers exactly the synced entry list (idealized primitives). -/
theorem from_input_sync_passwords (c : Crypto) (hc : GoodCrypto c)
    (s s2 : PasswordStore) (master : String) (iv bytes : List Nat)
    (hsalt : s.salt.length = SALT_LEN) (hiv : iv.length = IV_LEN)
    (hln : s.scrypt_log2_n < 256) (hr : s.scrypt_r < 4294967296)
    (hp : s.scrypt_p < 4294967296)
    (hsync : s.sync c iv = .ok bytes)
    (h2 : PasswordStore.from_input c master bytes = .ok s2) :
    s2.passwords = s.passwords := by
  obtain ⟨encrypted, henc⟩ :=
    Option.isSome_iff_exists.mp (hc.enc_some (c.jsonEncode s.passwords) s.key iv)
  unfold PasswordStore.sync at hsync
  rw [henc] at hsync
  simp only [Except.ok.injEq] at hsync
  subst hsync
  rw [Nat.mod_eq_of_lt hln] at h2
  rw [from_input_decomposed c master s.scrypt_log2_n s.scrypt_r s.scrypt_p
    s.salt iv (digest c s.key VERSION s.scrypt_log2_n s.scrypt_r s.scrypt_p iv
      s.salt encrypted) encrypted hr hp hsalt hiv (hc.hmac_len _ _)] at h2
  cases hd : c.aesDecrypt encrypted
      (c.scrypt master s.salt s.scrypt_log2_n s.scrypt_r s.scrypt_p) iv with
  | none => rw [hd] at h2; exact Except.noConfusion h2
  | some pt =>
    rw [hd] at h2
    obtain ⟨hpt, -, -⟩ := hc.enc_dec _ _ _ _ henc _ _ _ hd
    subst hpt
    simp only [hc.json_rt] at h2
    split at h2
    · rw [Except.ok.injEq] at h2
      rw [← h2]
    · exact Except.noConfusion h2

/-- The store states reachable by the public operations, with `open`
restricted to bytes produced by `sync` on a reachable, well-formed store (the
hypotheses on salt, IV and parameter sizes are the well-formedness the code
maintains for every store it ever writes). -/
inductive Reachable (c : Crypto) : PasswordStore → Prop where
  | base (master : String) (salt : List Nat) :
      Reachable c (PasswordStore.new c master salt)
  | add (s : PasswordStore) (pw : Password) : Reachable c s →
      Reachable c (s.add_password pw).2
  | del (s : PasswordStore) (name : String) : Reachable c s →
      Reachable c (s.delete_password name).2
  | change (s : PasswordStore) (name : String) (f : Password → Password) :
      Reachable c s → Reachable c (s.change_password name f).2
  | cmp (s : PasswordStore) (master : String) : Reachable c s →
      Reachable c (s.change_master_password c master)
  | csp (s : PasswordStore) (l r p : Nat) : Reachable c s →
      Reachable c (s.change_scrypt_params c l r p)
  | openSync (s s2 : PasswordStore) (master : String) (iv bytes : List Nat) :
      Reachable c s →
      s.salt.length = SALT_LEN → iv.length = IV_LEN →
      s.scrypt_log2_n < 256 → s.scrypt_r < 4294967296 → s.scrypt_p < 4294967296 →
      s.sync c iv = .ok bytes →
      PasswordStore.from_input c master bytes = .ok s2 →
      Reachable c s2

/-! ## Claim C5 -/

def pwACap : Password :=
  { name := "Ⱥ", username := "u", password := "s", created_at := 0, updated_at := 0 }

def pwASmall : Password :=
  { name := "ⱥ", username := "v", password := "t", created_at := 0, updated_at := 0 }

def cexStore5 : PasswordStore :=
  (((PasswordStore.new cexCrypto "m" saltZeros).add_password pwACap).2.add_password
    pwASmall).2

/-- C5, counterexample.  The claim asserts case-insensitive uniqueness of
names in every reachable state.  Starting from a fresh store, adding an entry
named "Ⱥ" (U+023A, 2 UTF-8 bytes) and then one named "ⱥ" (U+2C65, 3 UTF-8
bytes) both succeed, because the code's comparison requires equal byte
lengths before comparing characters; the resulting reachable state holds two
distinct entries whose lowercased names are equal. -/
theorem C5_counterexample :
    ((PasswordStore.new cexCrypto "m" saltZeros).add_password pwACap).1 = .ok () ∧
    (((PasswordStore.new cexCrypto "m" saltZeros).add_password
      pwACap).2.add_password pwASmall).1 = .ok () ∧
    pwACap ∈ cexStore5.passwords ∧ pwASmall ∈ cexStore5.passwords ∧
    strLower pwACap.name = strLower pwASmall.name ∧ pwACap ≠ pwASmall := by
  refine ⟨rfl, rfl, by decide, by decide, by decide, by decide⟩

/-- C5, amended.  In every reachable state, entry names are pairwise distinct
under the comparison the code actually performs (`nameMatches`: equal UTF-8
byte length and position-wise equality of the first lowercase character);
uniqueness under full lowercase equality does not hold. -/
theorem C5_amended_unique_names (c : Crypto) (hc : GoodCrypto c)
    (s : PasswordStore) (h : Reachable c s) : UniqueNames s.passwords := by
  induction h with
  | base master salt => exact List.Pairwise.nil
  | add s pw hs ih => exact uniqueNames_add s pw ih
  | del s name hs ih => exact uniqueNames_delete s name ih
  | change s name f hs ih => exact uniqueNames_change s name f ih
  | cmp s master hs ih => exact ih
  | csp s l r p hs ih => exact ih
  | openSync s s2 master iv bytes hs hsalt hiv hln hr hp hsync h2 ih =>
    rw [UniqueNames,
      from_input_sync_passwords c hc s s2 master iv bytes hsalt hiv hln hr hp
        hsync h2]
    exact ih

/-- C5, witness: the amended invariant evaluated on the concrete reachable
store that refutes the original claim. -/
theorem C5_witness : UniqueNames cexStore5.passwords :=
  C5_amended_unique_names cexCrypto goodCrypto_cexCrypto cexStore5
    (Reachable.add _ pwASmall (Reachable.add _ pwACap
      (Reachable.base "m" saltZeros)))

/-! ## Claim C10 -/

/-- C10.  `get_password` only ever matches a stored entry whose name has
exactly the same UTF-8 byte length as the query, comparing character by
character using only the first character of each character's lowercase
expansion; consequently it returns `none` whenever every stored name differs
from the query in byte length, even if equal after lowercasing. -/
theorem C10_get_byte_length (s : PasswordStore) (name : String) :
    (∀ p, s.get_password name = some p → strByteLen p.name = strByteLen name ∧
      ∀ i < strByteLen p.name, lowerAt p.name i = lowerAt name i) ∧
    ((∀ p ∈ s.passwords, strByteLen p.name ≠ strByteLen name) →
      s.get_password name = none) := by
  constructor
  · intro p hp
    unfold PasswordStore.get_password at hp
    have := List.find?_some hp
    rw [nameMatches_true_iff] at this
    exact this
  · intro hall
    unfold PasswordStore.get_password
    rw [List.find?_eq_none]
    intro p hp hmatch
    rw [nameMatches_true_iff] at hmatch
    exact hall p hp hmatch.1

/-- C10, witness: a store holding "Ⱥ" (2 bytes); the query "ⱥ" has the same
lowercase but 3 bytes, and `get_password` returns `none`. -/
theorem C10_witness :
    strLower (String.mk ['Ⱥ']) = strLower (String.mk ['ⱥ']) ∧
    (((PasswordStore.new cexCrypto "m" saltZeros).add_password
      pwACap).2).get_password (String.mk ['ⱥ']) = none :=
  ⟨by decide, (C10_get_byte_length _ _).2 (by decide)⟩

/-! ## Order lemmas for the sorted observables -/

theorem charListLe_nil_left (b : List Char) : charListLe [] b = true := rfl

theorem charListLe_cons_nil (x : Char) (xs : List Char) :
    charListLe (x :: xs) [] = false := rfl

theorem charListLe_cons_iff (x y : Char) (xs ys : List Char) :
    charListLe (x :: xs) (y :: ys) = true ↔
      x.toNat < y.toNat ∨ (x.toNat = y.toNat ∧ charListLe xs ys = true) := by
  rw [charListLe]
  by_cases h1 : x.toNat < y.toNat
  · rw [if_pos h1]
    exact ⟨fun _ => Or.inl h1, fun _ => rfl⟩
  · rw [if_neg h1]
    by_cases h2 : y.toNat < x.toNat
    · rw [if_pos h2]
      constructor
      · intro hf
        exact absurd hf (by simp)
      · rintro (h | ⟨he, -⟩)
        · exact absurd h h1
        · omega
    · rw [if_neg h2]
      constructor
      · intro h
        exact Or.inr ⟨by omega, h⟩
      · rintro (h | ⟨-, h⟩)
        · exact absurd h h1
        · exact h

theorem charListLe_trans (a b c : List Char) (hab : charListLe a b = true)
    (hbc : charListLe b c = true) : charListLe a c = true := by
  induction a generalizing b c with
  | nil => exact charListLe_nil_left c
  | cons x xs ih =>
    cases b with
    | nil => exact absurd hab (by simp [charListLe_cons_nil])
    | cons y ys =>
      cases c with
      | nil => exact absurd hbc (by simp [charListLe_cons_nil])
      | cons z zs =>
        rw [charListLe_cons_iff] at hab hbc ⊢
        rcases hab with h | ⟨he, hr⟩ <;> rcases hbc with h' | ⟨he', hr'⟩
        · exact Or.inl (by omega)
        · exact Or.inl (by omega)
        · exact Or.inl (by omega)
        · exact Or.inr ⟨by omega, ih ys zs hr hr'⟩

theorem charListLe_total (a b : List Char) :
    (charListLe a b || charListLe b a) = true := by
  induction a generalizing b with
  | nil => simp [charListLe_nil_left]
  | cons x xs ih =>
    cases b with
    | nil => simp [charListLe_nil_left]
    | cons y ys =>
      rcases Bool.or_eq_true_iff.mp (ih ys) with h | h
      · by_cases hxy : x.toNat ≤ y.toNat
        · refine Or.inl ?_ |> Bool.or_eq_true_iff.mpr
          rw [charListLe_cons_iff]
          rcases Nat.lt_or_ge x.toNat y.toNat with h2 | h2
          · exact Or.inl h2
          · exact Or.inr ⟨by omega, h⟩
        · refine Or.inr ?_ |> Bool.or_eq_true_iff.mpr
          rw [charListLe_cons_iff]
          exact Or.inl (by omega)
      · by_cases hyx : y.toNat ≤ x.toNat
        · refine Or.inr ?_ |> Bool.or_eq_true_iff.mpr
          rw [charListLe_cons_iff]
          rcases Nat.lt_or_ge y.toNat x.toNat with h2 | h2
          · exact Or.inl h2
          · exact Or.inr ⟨by omega, h⟩
        · refine Or.inl ?_ |> Bool.or_eq_true_iff.mpr
          rw [charListLe_cons_iff]
          exact Or.inl (by omega)

theorem charListLe_antisymm (a b : List Char) (hab : charListLe a b = true)
    (hba : charListLe b a = true) : a = b := by
  induction a generalizing b with
  | nil =>
    cases b with
    | nil => rfl
    | cons y ys => exact absurd hba (by simp [charListLe_cons_nil])
  | cons x xs ih =>
    cases b with
    | nil => exact absurd hab (by simp [charListLe_cons_nil])
    | cons y ys =>
      rw [charListLe_cons_iff] at hab hba
      rcases hab with h | ⟨he, hr⟩ <;> rcases hba with h' | ⟨he', hr'⟩
      · omega
      · omega
      · omega
      · rw [charEq_of_toNat_eq he, ih ys hr hr']

theorem lowerNameLe_trans (a b c : Password) (hab : lowerNameLe a b = true)
    (hbc : lowerNameLe b c = true) : lowerNameLe a c = true :=
  charListLe_trans _ _ _ hab hbc

theorem lowerNameLe_total (a b : Password) :
    (lowerNameLe a b || lowerNameLe b a) = true :=
  charListLe_total _ _

/-- Two sorted lists that are permutations of each other and have pairwise
distinct sort keys are equal. -/
theorem sorted_perm_eq {l1 l2 : List Password} (hp : l1.Perm l2)
    (h1 : l1.Pairwise fun a b => lowerNameLe a b = true)
    (h2 : l2.Pairwise fun a b => lowerNameLe a b = true)
    (hk : l1.Pairwise fun a b => lowerKey a ≠ lowerKey b) :
    l1 = l2 := by
  induction l1 generalizing l2 with
  | nil => rw [(List.perm_nil.mp hp.symm)]
  | cons a t1 ih =>
    cases l2 with
    | nil => exact absurd (List.Perm.eq_nil hp) (by simp)
    | cons b t2 =>
      have hab : a = b := by
        have hamem : a ∈ b :: t2 := hp.mem_iff.mp (List.mem_cons_self a t1)
        rcases List.mem_cons.mp hamem with h | h
        · exact h
        · have hba : lowerNameLe b a = true := (List.pairwise_cons.mp h2).1 a h
          have hbmem : b ∈ a :: t1 := hp.mem_iff.mpr (List.mem_cons_self b t2)
          rcases List.mem_cons.mp hbmem with h' | h'
          · exact h'.symm
          · have hab2 : lowerNameLe a b = true := (List.pairwise_cons.mp h1).1 b h'
            have hkeq : lowerKey a = lowerKey b := charListLe_antisymm _ _ hab2 hba
            exact absurd hkeq ((List.pairwise_cons.mp hk).1 b h')
      subst hab
      rw [ih hp.cons_inv (List.pairwise_cons.mp h1).2 (List.pairwise_cons.mp h2).2
        (List.pairwise_cons.mp hk).2]

/-- `mergeSort` by lowercased name is determined by the multiset of entries
when the sort keys are pairwise distinct. -/
theorem mergeSort_eq_of_perm {l1 l2 : List Password} (hperm : l1.Perm l2)
    (hk : l1.Pairwise fun a b => lowerKey a ≠ lowerKey b) :
    l1.mergeSort lowerNameLe = l2.mergeSort lowerNameLe := by
  have hsym : ∀ {x y : Password}, lowerKey x ≠ lowerKey y → lowerKey y ≠ lowerKey x :=
    fun h => fun heq => h heq.symm
  apply sorted_perm_eq
  · exact (l1.mergeSort_perm lowerNameLe).trans
      (hperm.trans (l2.mergeSort_perm lowerNameLe).symm)
  · exact List.sorted_mergeSort lowerNameLe_trans lowerNameLe_total l1
  · exact List.sorted_mergeSort lowerNameLe_trans lowerNameLe_total l2
  · exact (List.Perm.pairwise_iff hsym (l1.mergeSort_perm lowerNameLe)).mpr hk

/-- In a list with pairwise non-matching names, two members whose names match
are the same entry. -/
theorem eq_of_uniqueNames {l : List Password} (h : UniqueNames l) {a b : Password}
    (ha : a ∈ l) (hb : b ∈ l) (hm : nameMatches a.name b.name = true) : a = b := by
  induction l with
  | nil => cases ha
  | cons x xs ih =>
    rw [UniqueNames, List.pairwise_cons] at h
    rcases List.mem_cons.mp ha with rfl | ha' <;>
      rcases List.mem_cons.mp hb with rfl | hb'
    · rfl
    · rw [h.1 b hb'] at hm
      exact absurd hm (by simp)
    · rw [nameMatches_symm] at hm
      rw [h.1 a ha'] at hm
      exact absurd hm (by simp)
    · exact ih h.2 ha' hb'

/-! ## Characterization of the search filter -/

theorem searchFilter_eq_none_iff (q : String) (keys : List String) :
    searchFilter q keys = none ↔
      ∃ k ∈ keys, matchLoop (strBytes k) q.data 0 = none := by
  induction keys with
  | nil => simp [searchFilter]
  | cons k ks ih =>
    rw [searchFilter]
    cases hm : matchLoop (strBytes k) q.data 0 with
    | none => simp [hm]
    | some b =>
      cases hf : searchFilter q ks with
      | none =>
        simp only [ih] at hf
        obtain ⟨k2, hk2, hk2n⟩ := hf
        simp only [true_iff]
        exact ⟨k2, List.mem_cons_of_mem k hk2, hk2n⟩
      | some rest =>
        constructor
        · intro hcontra
          exact Option.noConfusion hcontra
        · rintro ⟨k2, hk2, hk2n⟩
          rcases List.mem_cons.mp hk2 with rfl | hk2'
          · rw [hm] at hk2n
            exact Option.noConfusion hk2n
          · rw [(ih).mpr ⟨k2, hk2', hk2n⟩] at hf
            exact Option.noConfusion hf

theorem mem_searchFilter {q : String} {keys res : List String}
    (h : searchFilter q keys = some res) (x : String) :
    x ∈ res ↔ x ∈ keys ∧ matchLoop (strBytes x) q.data 0 = some true := by
  induction keys generalizing res with
  | nil =>
    rw [searchFilter] at h
    injection h with h
    subst h
    simp
  | cons k ks ih =>
    rw [searchFilter] at h
    cases hm : matchLoop (strBytes k) q.data 0 with
    | none =>
      rw [hm] at h
      exact Option.noConfusion h
    | some b =>
      rw [hm] at h
      cases hf : searchFilter q ks with
      | none =>
        rw [hf] at h
        exact Option.noConfusion h
      | some rest =>
        rw [hf] at h
        injection h with h
        subst h
        have ihx := ih hf
        cases b with
        | true =>
          show x ∈ k :: rest ↔
            x ∈ k :: ks ∧ matchLoop (strBytes x) q.data 0 = some true
          constructor
          · intro hx
            rcases List.mem_cons.mp hx with rfl | hx'
            · exact ⟨List.mem_cons_self x ks, hm⟩
            · obtain ⟨h1, h2⟩ := ihx.mp hx'
              exact ⟨List.mem_cons_of_mem k h1, h2⟩
          · rintro ⟨hk, hmx⟩
            rcases List.mem_cons.mp hk with rfl | hk'
            · exact List.mem_cons_self x rest
            · exact List.mem_cons_of_mem k (ihx.mpr ⟨hk', hmx⟩)
        | false =>
          show x ∈ rest ↔
            x ∈ k :: ks ∧ matchLoop (strBytes x) q.data 0 = some true
          constructor
          · intro hx
            obtain ⟨h1, h2⟩ := ihx.mp hx
            exact ⟨List.mem_cons_of_mem k h1, h2⟩
          · rintro ⟨hk, hmx⟩
            rcases List.mem_cons.mp hk with rfl | hk'
            · rw [hm] at hmx
              injection hmx with hmx
              exact absurd hmx (by simp)
            · exact ihx.mpr ⟨hk', hmx⟩

/-- With the code's uniqueness invariant, `get_password` is determined by the
multiset of entries: at most one entry can match a query, so the first match
does not depend on the order. -/
theorem get_password_eq_of_perm (s2 s : PasswordStore)
    (hperm : s2.passwords.Perm s.passwords)
    (huniq : UniqueNames s.passwords) :
    ∀ q, s2.get_password q = s.get_password q := by
  intro q
  unfold PasswordStore.get_password
  apply find?_perm_of_unique hperm
  intro a ha b hb hma hmb
  exact eq_of_uniqueNames huniq (hperm.mem_iff.mp ha) (hperm.mem_iff.mp hb)
    (nameMatches_trans_query hma hmb)

/-- The sorted observables (`get_all_passwords`, `get_password`,
`has_password`, `search_passwords`) are determined by the multiset of entries
when names are unique (code comparison) and lowercased names are pairwise
distinct — the latter is needed for the sorted views because the code's
stable sort preserves the relative order of entries with equal lowercased
names. -/
theorem observables_eq_of_perm (s2 s : PasswordStore)
    (hperm : s2.passwords.Perm s.passwords)
    (huniq : UniqueNames s.passwords)
    (hkeys : s.passwords.Pairwise fun a b => lowerKey a ≠ lowerKey b) :
    s2.get_all_passwords = s.get_all_passwords ∧
    (∀ q, s2.get_password q = s.get_password q) ∧
    (∀ q, s2.has_password q = s.has_password q) ∧
    (∀ q, s2.search_passwords q = s.search_passwords q) := by
  have hkeysym : ∀ {x y : Password}, lowerKey x ≠ lowerKey y → lowerKey y ≠ lowerKey x :=
    fun h => fun heq => h heq.symm
  have hget : ∀ q, s2.get_password q = s.get_password q :=
    get_password_eq_of_perm s2 s hperm huniq
  refine ⟨?_, hget, ?_, ?_⟩
  · exact mergeSort_eq_of_perm hperm
      ((List.Perm.pairwise_iff hkeysym hperm).mpr hkeys)
  · intro q
    unfold PasswordStore.has_password
    rw [hget q]
  · intro q
    unfold PasswordStore.search_passwords
    have hkeysperm : (s2.passwords.map fun p => strLower p.name).Perm
        (s.passwords.map fun p => strLower p.name) := hperm.map _
    cases hf : searchFilter q (s.passwords.map fun p => strLower p.name) with
    | none =>
      rw [searchFilter_eq_none_iff] at hf
      obtain ⟨k, hk, hkn⟩ := hf
      rw [(searchFilter_eq_none_iff q _).mpr ⟨k, hkeysperm.mem_iff.mpr hk, hkn⟩]
    | some res =>
      cases hf2 : searchFilter q (s2.passwords.map fun p => strLower p.name) with
      | none =>
        rw [searchFilter_eq_none_iff] at hf2
        obtain ⟨k, hk, hkn⟩ := hf2
        have : searchFilter q (s.passwords.map fun p => strLower p.name) = none :=
          (searchFilter_eq_none_iff q _).mpr ⟨k, hkeysperm.mem_iff.mp hk, hkn⟩
        rw [this] at hf
        exact Option.noConfusion hf
      | some res2 =>
        have hmemiff : ∀ x, x ∈ res2 ↔ x ∈ res := by
          intro x
          rw [mem_searchFilter hf2 x, mem_searchFilter hf x,
            hkeysperm.mem_iff]
        have hfiltereq : (s2.passwords.filter fun p => res2.contains
            (strLower p.name)) = s2.passwords.filter fun p => res.contains
            (strLower p.name) := by
          apply List.filter_congr
          intro p hp
          rw [Bool.eq_iff_iff]
          rw [List.elem_iff, List.elem_iff]
          exact hmemiff (strLower p.name)
        have hfiltperm : (s2.passwords.filter fun p => res.contains
            (strLower p.name)).Perm (s.passwords.filter fun p => res.contains
            (strLower p.name)) := hperm.filter _
        have hkfilt : (s.passwords.filter fun p => res.contains
            (strLower p.name)).Pairwise fun a b => lowerKey a ≠ lowerKey b :=
          List.Pairwise.sublist (List.filter_sublist s.passwords) hkeys
        show some ((s2.passwords.filter fun p => res2.contains
            (strLower p.name)).mergeSort lowerNameLe) =
          some ((s.passwords.filter fun p => res.contains
            (strLower p.name)).mergeSort lowerNameLe)
        rw [hfiltereq, mergeSort_eq_of_perm hfiltperm
          ((List.Perm.pairwise_iff hkeysym hfiltperm).mpr hkfilt)]

/-! ## Behaviour of delete and add used by `change_password` -/

theorem delete_password_of_get (s : PasswordStore) (name : String)
    (old : Password) (hget : s.get_password name = some old) :
    ∃ pre post, s.passwords = pre ++ old :: post ∧
      (∀ b ∈ pre, nameMatches b.name name = false) ∧
      s.delete_password name = (.ok old, { s with passwords := pre ++ post }) := by
  have hget' : s.passwords.find? (fun p => nameMatches p.name name) = some old := hget
  have hmatch := List.find?_some hget'
  obtain ⟨pre, post, hsplit, hpre⟩ := find?_split _ hget'
  have hnames : ∀ p ∈ pre, p.name ≠ old.name := by
    intro p hp heq
    have hpm : nameMatches p.name name = true := by rw [heq]; exact hmatch
    have hf := hpre p hp
    rw [hpm] at hf
    exact Bool.noConfusion hf
  have hremove : removeFirstByName old.name s.passwords = some (old, pre ++ post) := by
    rw [hsplit]
    exact removeFirstByName_append pre post old hnames
  refine ⟨pre, post, hsplit, hpre, ?_⟩
  unfold PasswordStore.delete_password
  simp only [hget, hremove]

theorem add_password_error_store {s1 : PasswordStore} {pw : Password}
    {err : PasswordError} {s2 : PasswordStore}
    (h : s1.add_password pw = (.error err, s2)) : s2 = s1 := by
  unfold PasswordStore.add_password at h
  split at h
  · exact (Prod.mk.inj h).2.symm
  split at h
  · exact (Prod.mk.inj h).2.symm
  · exact Except.noConfusion (Prod.mk.inj h).1

theorem add_password_rollback_ok (s1 : PasswordStore) (old : Password)
    (hne : strByteLen old.password ≠ 0)
    (hno : ∀ p ∈ s1.passwords, nameMatches p.name old.name = false) :
    s1.add_password old =
      (.ok (), { s1 with passwords := s1.passwords ++ [old] }) := by
  have hf := (has_password_false_iff s1 old.name).mpr hno
  unfold PasswordStore.add_password
  rw [if_neg (by simpa using hne), if_neg (by simp [hf])]

/-! ## Claim C9 -/

/-- C9, counterexample.  The claim asserts that after a failed insertion the
observable state as seen through `list` (`get_all_passwords`) and `search` is
unchanged.  On the reachable store holding "Ⱥ" then "ⱥ" (see C5: both adds
succeed, and their lowercased names are equal), a `change` of "Ⱥ" whose
transform empties the secret fails and reinserts the old entry — but at the
end of the list: the two entries share the lowercase sort key "ⱥ", the sort
is stable, and so the output of `get_all_passwords` changes from
[Ⱥ-entry, ⱥ-entry] to [ⱥ-entry, Ⱥ-entry] even though the entry multiset is
preserved and the insertion error is returned. -/
theorem C9_counterexample :
    (cexStore5.change_password "Ⱥ" fun p => { p with password := "" }).1 =
      .error .EmptyPasswordError ∧
    (cexStore5.change_password "Ⱥ"
      fun p => { p with password := "" }).2.passwords.Perm
      cexStore5.passwords ∧
    (cexStore5.change_password "Ⱥ"
      fun p => { p with password := "" }).2.get_all_passwords ≠
      cexStore5.get_all_passwords := by
  refine ⟨rfl, by decide, ?_⟩
  have h1 : (cexStore5.change_password "Ⱥ" fun p =>
      { p with password := "" }).2.get_all_passwords = [pwASmall, pwACap] := by
    have hpw : (cexStore5.change_password "Ⱥ" fun p =>
        { p with password := "" }).2.passwords = [pwASmall, pwACap] := by decide
    unfold PasswordStore.get_all_passwords
    rw [hpw]
    exact List.mergeSort_of_sorted (by decide)
  have h2 : cexStore5.get_all_passwords = [pwACap, pwASmall] := by
    have hpw : cexStore5.passwords = [pwACap, pwASmall] := by decide
    unfold PasswordStore.get_all_passwords
    rw [hpw]
    exact List.mergeSort_of_sorted (by decide)
  rw [h1, h2]
  decide

/-- C9, amended.  `change_password` removes the matching entry, applies the
transform, and inserts the result; when the insertion fails, the old entry is
reinserted (at the end of the list), the insertion error is returned, the
entry multiset is unchanged, and `get_password`/`has_password` answer as
before; the sorted outputs of `get_all_passwords` and `search_passwords` are
also unchanged provided no two entries share a lowercased name — when two
entries share one (reachable, see the counterexample), only their relative
order in those stable-sorted outputs can change.  The remaining hypotheses
are code invariants of reachable stores: names unique under the code
comparison, secrets non-empty. -/
theorem C9_change_atomic (s : PasswordStore) (name : String)
    (f : Password → Password)
    (huniq : UniqueNames s.passwords)
    (hsec : ∀ p ∈ s.passwords, strByteLen p.password ≠ 0)
    (old : Password) (hget : s.get_password name = some old) :
    (∀ u s2, (s.delete_password name).2.add_password (f old) = (.ok u, s2) →
      s.change_password name f = (.ok (f old), s2)) ∧
    (∀ err s2x, (s.delete_password name).2.add_password (f old) =
        (.error err, s2x) →
      (s.change_password name f).1 = .error err ∧
      (s.change_password name f).2.passwords.Perm s.passwords ∧
      (∀ q, (s.change_password name f).2.get_password q = s.get_password q) ∧
      (∀ q, (s.change_password name f).2.has_password q = s.has_password q) ∧
      ((s.passwords.Pairwise fun a b => lowerKey a ≠ lowerKey b) →
        (s.change_password name f).2.get_all_passwords = s.get_all_passwords ∧
        ∀ q, (s.change_password name f).2.search_passwords q =
          s.search_passwords q)) := by
  obtain ⟨pre, post, hsplit, hprenm, hdel⟩ := delete_password_of_get s name old hget
  constructor
  · intro u s2 hadd
    rw [hdel] at hadd
    unfold PasswordStore.change_password
    simp only [hdel, hadd]
  · intro err s2x hadd
    rw [hdel] at hadd
    have holdmem : old ∈ s.passwords := by
      rw [hsplit]
      exact List.mem_append.mpr (Or.inr (List.mem_cons_self old post))
    have hnoold : ∀ p ∈ pre ++ post, nameMatches p.name old.name = false := by
      have huniq2 : UniqueNames (pre ++ old :: post) := by rw [← hsplit]; exact huniq
      rw [UniqueNames, List.pairwise_append] at huniq2
      intro p hp
      rcases List.mem_append.mp hp with hp | hp
      · exact huniq2.2.2 p hp old (List.mem_cons_self old post)
      · have := (List.pairwise_cons.mp huniq2.2.1).1 p hp
        rw [nameMatches_symm]
        exact this
    have hroll : ({ s with passwords := pre ++ post } : PasswordStore).add_password
        old = (.ok (), { s with passwords := (pre ++ post) ++ [old] }) :=
      add_password_rollback_ok _ old (hsec old holdmem) hnoold
    have hchange : s.change_password name f =
        (.error err, { s with passwords := (pre ++ post) ++ [old] }) := by
      unfold PasswordStore.change_password
      simp only [hdel, hadd, hroll]
    have hperm : ((pre ++ post) ++ [old]).Perm s.passwords := by
      rw [hsplit]
      exact (List.perm_append_singleton old (pre ++ post)).trans
        List.perm_middle.symm
    have hget2 := get_password_eq_of_perm
      { s with passwords := (pre ++ post) ++ [old] } s hperm huniq
    rw [hchange]
    refine ⟨rfl, hperm, hget2, ?_, ?_⟩
    · intro q
      unfold PasswordStore.has_password
      rw [hget2 q]
    · intro hkeys
      have hobs := observables_eq_of_perm
        { s with passwords := (pre ++ post) ++ [old] } s hperm huniq hkeys
      exact ⟨hobs.1, hobs.2.2.2⟩

def pw9 : Password :=
  { name := "App", username := "u", password := "p", created_at := 0,
    updated_at := 0 }

def cexStore9 : PasswordStore :=
  ((PasswordStore.new cexCrypto "m" saltZeros).add_password pw9).2

/-- C9, witness: a failing transform (empty secret) on a concrete store with
distinct lowercased names; the error is surfaced, the entry multiset,
`get_password` and `has_password` are unchanged, and (the names being
distinct after lowercasing) so are `get_all_passwords` and
`search_passwords`. -/
theorem C9_witness :
    (cexStore9.change_password "app" (fun p => { p with password := "" })).1 =
      .error .EmptyPasswordError ∧
    (cexStore9.change_password "app"
      (fun p => { p with password := "" })).2.passwords.Perm
      cexStore9.passwords ∧
    (∀ q, (cexStore9.change_password "app"
      (fun p => { p with password := "" })).2.get_password q =
      cexStore9.get_password q) ∧
    (∀ q, (cexStore9.change_password "app"
      (fun p => { p with password := "" })).2.has_password q =
      cexStore9.has_password q) ∧
    ((cexStore9.passwords.Pairwise fun a b => lowerKey a ≠ lowerKey b) →
      (cexStore9.change_password "app"
        (fun p => { p with password := "" })).2.get_all_passwords =
        cexStore9.get_all_passwords ∧
      ∀ q, (cexStore9.change_password "app"
        (fun p => { p with password := "" })).2.search_passwords q =
        cexStore9.search_passwords q) :=
  (C9_change_atomic cexStore9 "app" (fun p => { p with password := "" })
    (by unfold UniqueNames; decide) (by decide) pw9 (by decide)).2
    .EmptyPasswordError (cexStore9.delete_password "app").2 rfl

/-! ## ASCII lemmas for the search claims -/

/-- ASCII lowercase at the character level. -/
def asciiLowerChar (c : Char) : Char :=
  if 65 ≤ c.toNat ∧ c.toNat ≤ 90 then Char.ofNat (c.toNat + 32) else c

theorem char_AZ_iff (c : Char) :
    ('A' ≤ c ∧ c ≤ 'Z') ↔ (65 ≤ c.toNat ∧ c.toNat ≤ 90) := by
  rw [Char.le_def, Char.le_def, UInt32.le_def, UInt32.le_def]
  exact Iff.rfl

theorem toNat_ofNat_lt (n : Nat) (h : n < 55296) : (Char.ofNat n).toNat = n := by
  unfold Char.ofNat
  rw [dif_pos (Or.inl h)]
  rfl

theorem charLower_ascii (c : Char) (h : c.toNat < 128) :
    charLower c = [asciiLowerChar c] := by
  unfold charLower asciiLowerChar
  by_cases hA : 65 ≤ c.toNat ∧ c.toNat ≤ 90
  · rw [if_pos ((char_AZ_iff c).mpr hA), if_pos hA]
  · rw [if_neg (fun hc => hA ((char_AZ_iff c).mp hc)), if_neg hA,
      if_neg (by intro hc; rw [hc] at h; exact absurd h (by decide)),
      if_neg (by intro hc; rw [hc] at h; exact absurd h (by decide))]

theorem asciiLowerChar_lt (c : Char) (h : c.toNat < 128) :
    (asciiLowerChar c).toNat < 128 := by
  unfold asciiLowerChar
  by_cases hA : 65 ≤ c.toNat ∧ c.toNat ≤ 90
  · rw [if_pos hA, toNat_ofNat_lt _ (by omega)]
    omega
  · rw [if_neg hA]
    exact h

theorem utf8Encode_ascii (c : Char) (h : c.toNat < 128) :
    utf8Encode c = [c.toNat] := by
  unfold utf8Encode
  rw [if_pos h]

theorem flatMap_charLower_ascii (l : List Char) (h : ∀ ch ∈ l, ch.toNat < 128) :
    l.flatMap charLower = l.map asciiLowerChar := by
  induction l with
  | nil => rfl
  | cons c cs ih =>
    rw [List.flatMap_cons, List.map_cons,
      charLower_ascii c (h c (List.mem_cons_self c cs)),
      ih fun ch hch => h ch (List.mem_cons_of_mem c hch)]
    rfl

theorem strLower_data_ascii (s : String) (h : ∀ ch ∈ s.data, ch.toNat < 128) :
    (strLower s).data = s.data.map asciiLowerChar :=
  flatMap_charLower_ascii s.data h

theorem flatMap_utf8_ascii (l : List Char) (h : ∀ ch ∈ l, ch.toNat < 128) :
    l.flatMap utf8Encode = l.map Char.toNat := by
  induction l with
  | nil => rfl
  | cons c cs ih =>
    rw [List.flatMap_cons, List.map_cons,
      utf8Encode_ascii c (h c (List.mem_cons_self c cs)),
      ih fun ch hch => h ch (List.mem_cons_of_mem c hch)]
    rfl

theorem strBytes_ascii (s : String) (h : ∀ ch ∈ s.data, ch.toNat < 128) :
    strBytes s = s.data.map Char.toNat :=
  flatMap_utf8_ascii s.data h

theorem sublist_map_toNat_iff (l1 l2 : List Char) :
    (l1.map Char.toNat).Sublist (l2.map Char.toNat) ↔ l1.Sublist l2 := by
  constructor
  · intro h
    obtain ⟨l', hl', heq⟩ := List.sublist_map_iff.mp h
    have hinj : l1 = l' := by
      have : Function.Injective Char.toNat := fun a b hab => charEq_of_toNat_eq hab
      exact List.map_injective_iff.mpr this heq
    rw [hinj]
    exact hl'
  · intro h
    exact h.map _

/-! ## The byte-level search loop on single-byte characters -/

theorem isCharBoundary_ascii (app : List Nat) (happ : ∀ b ∈ app, b < 128)
    (i : Nat) (hi : i ≤ app.length) : isCharBoundary app i = true := by
  unfold isCharBoundary
  rcases Nat.lt_or_ge i app.length with h | h
  · cases hb : app[i]? with
    | none => exact absurd (List.getElem?_eq_none_iff.mp hb) (by omega)
    | some b =>
      have hbm : b ∈ app := by
        have := List.getElem?_eq_some_iff.mp hb
        obtain ⟨hlt, hval⟩ := this
        rw [← hval]
        exact List.getElem_mem hlt
      have := happ b hbm
      simp [hb]
      omega
  · have : i = app.length := by omega
    simp [this]

theorem findSub_singleton_none {b : Nat} {l : List Nat}
    (h : findSub [b] l = none) : b ∉ l := by
  induction l with
  | nil => simp
  | cons x rest ih =>
    rw [findSub] at h
    split at h
    · exact Option.noConfusion h
    next hpre =>
      cases hf : findSub [b] rest with
      | none =>
        intro hmem
        rcases List.mem_cons.mp hmem with rfl | hm
        · exact hpre (by simp [List.isPrefixOf])
        · exact ih hf hm
      | some ic =>
        rw [hf] at h
        exact Option.noConfusion h

theorem findSub_singleton_some {b : Nat} {l : List Nat} {ic : Nat}
    (h : findSub [b] l = some ic) :
    ∃ pre suf, l = pre ++ b :: suf ∧ pre.length = ic ∧ b ∉ pre := by
  induction l generalizing ic with
  | nil => exact Option.noConfusion h
  | cons x rest ih =>
    rw [findSub] at h
    split at h
    next hpre =>
      injection h with h
      subst h
      have hbx : b = x := by
        have hp := hpre
        simp [List.isPrefixOf] at hp
        exact hp
      subst hbx
      exact ⟨[], rest, rfl, rfl, by simp⟩
    next hpre =>
      cases hf : findSub [b] rest with
      | none =>
        rw [hf] at h
        exact Option.noConfusion h
      | some ic' =>
        rw [hf] at h
        injection h with h
        obtain ⟨pre, suf, heq, hlen, hnot⟩ := ih hf
        have hbx : b ≠ x := by
          intro hc
          exact hpre (by subst hc; simp [List.isPrefixOf])
        refine ⟨x :: pre, suf, by rw [List.cons_append, heq], ?_, ?_⟩
        · rw [List.length_cons, hlen]
          exact h
        · intro hc
          rcases List.mem_cons.mp hc with hc | hc
          · exact hbx hc
          · exact hnot hc

theorem cons_sublist_first_occ {b : Nat} {rest pre suf : List Nat}
    (h : (b :: rest).Sublist (pre ++ b :: suf)) (hb : b ∉ pre) :
    rest.Sublist suf := by
  induction pre with
  | nil =>
    rw [List.nil_append] at h
    exact List.cons_sublist_cons.mp h
  | cons x xs ih =>
    rw [List.cons_append] at h
    cases h with
    | cons _ h2 => exact ih h2 fun hc => hb (List.mem_cons_of_mem x hc)
    | cons₂ _ h2 => exact absurd (List.mem_cons_self _ _) hb

/-- On single-byte (ASCII) input, the matching loop of `search_passwords`
never panics, and succeeds exactly when the lowercased query bytes occur as a
subsequence of the app-name bytes after position `i`. -/
theorem matchLoop_ascii (app : List Nat) (happ : ∀ b ∈ app, b < 128)
    (cs : List Char) (hcs : ∀ ch ∈ cs, ch.toNat < 128) (i : Nat)
    (hi : i ≤ app.length) :
    ∃ b, matchLoop app cs i = some b ∧
      (b = true ↔
        (cs.map fun c => (asciiLowerChar c).toNat).Sublist (app.drop i)) := by
  induction cs generalizing i with
  | nil =>
    exact ⟨true, rfl, by simp⟩
  | cons c cs' ih =>
    have hc : c.toNat < 128 := hcs c (List.mem_cons_self c cs')
    have hcb : (charLower c).flatMap utf8Encode = [(asciiLowerChar c).toNat] := by
      rw [charLower_ascii c hc, List.flatMap_cons,
        utf8Encode_ascii _ (asciiLowerChar_lt c hc)]
      rfl
    rw [matchLoop, if_pos (isCharBoundary_ascii app happ i hi), hcb]
    cases hf : findSub [(asciiLowerChar c).toNat] (app.drop i) with
    | none =>
      refine ⟨false, rfl, ?_⟩
      constructor
      · intro hc2
        exact absurd hc2 (by simp)
      · intro hsub
        rw [List.map_cons] at hsub
        exact absurd (hsub.subset (List.mem_cons_self _ _))
          (findSub_singleton_none hf)
    | some ic =>
      obtain ⟨pre, suf, heq, hlen, hnot⟩ := findSub_singleton_some hf
      have hsuf : suf = app.drop (i + ic + 1) := by
        have h1 : app.drop (i + (ic + 1)) = (app.drop i).drop (ic + 1) :=
          (List.drop_drop (ic + 1) i app).symm
        have h2 : (app.drop i).drop (ic + 1) = suf := by
          rw [heq, ← hlen]
          have : pre.length + (1 : Nat) = (pre ++ [(asciiLowerChar c).toNat]).length := by
            simp
          rw [show pre ++ (asciiLowerChar c).toNat :: suf =
            (pre ++ [(asciiLowerChar c).toNat]) ++ suf by simp, this,
            List.drop_left]
        rw [show i + ic + 1 = i + (ic + 1) by omega, h1, h2]
      have hlen2 : i + ic + 1 ≤ app.length := by
        have : (app.drop i).length = app.length - i := List.length_drop i app
        have h3 : (app.drop i).length = pre.length + 1 + suf.length := by
          rw [heq]
          simp
          omega
        omega
      obtain ⟨b, hb, hiff⟩ := ih (fun ch hch => hcs ch (List.mem_cons_of_mem c hch))
        (i + ic + 1) hlen2
      refine ⟨b, hb, hiff.trans ?_⟩
      rw [← hsuf, List.map_cons]
      constructor
      · intro hsub
        rw [heq]
        exact (List.cons_sublist_cons.mpr hsub).trans
          (List.sublist_append_right pre _)
      · intro hsub
        rw [heq] at hsub
        exact cons_sublist_first_occ hsub hnot

/-- On ASCII queries and ASCII stored names, `search_passwords` returns a
value satisfying the spec's four search properties: subset of the store,
lowercased query a subsequence of every result's lowercased name,
completeness, and sortedness by lowercased name. -/
theorem search_passwords_ascii_spec (s : PasswordStore) (q : String)
    (hq : ∀ ch ∈ q.data, ch.toNat < 128)
    (hnames : ∀ p ∈ s.passwords, ∀ ch ∈ p.name.data, ch.toNat < 128) :
    ∃ res, s.search_passwords q = some res ∧
      (∀ p ∈ res, p ∈ s.passwords) ∧
      (∀ p ∈ res, (strLower q).data.Sublist (strLower p.name).data) ∧
      (∀ p ∈ s.passwords, (strLower q).data.Sublist (strLower p.name).data →
        p ∈ res) ∧
      res.Pairwise fun a b => lowerNameLe a b = true := by
  have hkeyprop : ∀ p ∈ s.passwords,
      ∃ b, matchLoop (strBytes (strLower p.name)) q.data 0 = some b ∧
        (b = true ↔ (strLower q).data.Sublist (strLower p.name).data) := by
    intro p hp
    have hnp := hnames p hp
    have hlowascii : ∀ ch ∈ (strLower p.name).data, ch.toNat < 128 := by
      rw [strLower_data_ascii p.name hnp]
      intro ch hch
      obtain ⟨c0, hc0, rfl⟩ := List.mem_map.mp hch
      exact asciiLowerChar_lt c0 (hnp c0 hc0)
    have happ : ∀ b ∈ strBytes (strLower p.name), b < 128 := by
      rw [strBytes_ascii _ hlowascii]
      intro b hb
      obtain ⟨c0, hc0, rfl⟩ := List.mem_map.mp hb
      exact hlowascii c0 hc0
    obtain ⟨b, hb, hiff⟩ := matchLoop_ascii (strBytes (strLower p.name)) happ
      q.data hq 0 (by omega)
    refine ⟨b, hb, hiff.trans ?_⟩
    rw [List.drop_zero, strBytes_ascii _ hlowascii]
    have hql : (q.data.map fun c => (asciiLowerChar c).toNat) =
        ((strLower q).data).map Char.toNat := by
      rw [strLower_data_ascii q hq, List.map_map]
      rfl
    rw [hql, sublist_map_toNat_iff]
  cases hsf : searchFilter q (s.passwords.map fun p => strLower p.name) with
  | none =>
    rw [searchFilter_eq_none_iff] at hsf
    obtain ⟨k, hk, hkn⟩ := hsf
    obtain ⟨p, hp, rfl⟩ := List.mem_map.mp hk
    obtain ⟨b, hb, -⟩ := hkeyprop p hp
    rw [hb] at hkn
    exact Option.noConfusion hkn
  | some res0 =>
    refine ⟨(s.passwords.filter fun p =>
      res0.contains (strLower p.name)).mergeSort lowerNameLe, ?_, ?_, ?_, ?_, ?_⟩
    · unfold PasswordStore.search_passwords
      rw [hsf]
    · intro p hp
      have hpf := ((s.passwords.filter fun p =>
        res0.contains (strLower p.name)).mergeSort_perm lowerNameLe).mem_iff.mp hp
      exact (List.mem_filter.mp hpf).1
    · intro p hp
      have hpf := ((s.passwords.filter fun p =>
        res0.contains (strLower p.name)).mergeSort_perm lowerNameLe).mem_iff.mp hp
      have hpmem := (List.mem_filter.mp hpf).1
      have hmem : strLower p.name ∈ res0 :=
        List.elem_iff.mp (List.mem_filter.mp hpf).2
      have hm := ((mem_searchFilter hsf (strLower p.name)).mp hmem).2
      obtain ⟨b, hb, hiff⟩ := hkeyprop p hpmem
      rw [hb] at hm
      injection hm with hm
      exact hiff.mp hm
    · intro p hp hsub
      obtain ⟨b, hb, hiff⟩ := hkeyprop p hp
      have hbt : b = true := hiff.mpr hsub
      subst hbt
      have hmem : strLower p.name ∈ res0 := (mem_searchFilter hsf _).mpr
        ⟨List.mem_map_of_mem _ hp, hb⟩
      have hfilt : p ∈ s.passwords.filter fun p =>
          res0.contains (strLower p.name) :=
        List.mem_filter.mpr ⟨hp, List.elem_iff.mpr hmem⟩
      exact ((s.passwords.filter fun p =>
        res0.contains (strLower p.name)).mergeSort_perm lowerNameLe).mem_iff.mpr hfilt
    · exact List.sorted_mergeSort lowerNameLe_trans lowerNameLe_total _

/-! ## Claim C7 -/

def pw7 : Password :=
  { name := String.mk ['é', 'x'], username := "u", password := "p",
    created_at := 0, updated_at := 0 }

def cexStore7 : PasswordStore :=
  ((PasswordStore.new cexCrypto "m" saltZeros).add_password pw7).2

/-- C7, counterexample.  For the store holding the entry named "éx" and the
query "éx", the lowercased name admits the lowercased query as a subsequence
(they are equal), yet `search_passwords` returns no result list at all: the
matching loop advances the byte index one past the start of the matched
two-byte character "é" and the subsequent slice `app_name[1..]` falls inside
that character, which panics in Rust (modelled as `none`).  Hence the
completeness part of the claim fails. -/
theorem C7_counterexample :
    cexStore7.search_passwords (String.mk ['é', 'x']) = none ∧
    (strLower (String.mk ['é', 'x'])).data.Sublist (strLower pw7.name).data ∧
    ¬∃ res, cexStore7.search_passwords (String.mk ['é', 'x']) = some res ∧
      ∀ p ∈ cexStore7.passwords,
        (strLower (String.mk ['é', 'x'])).data.Sublist (strLower p.name).data →
          p ∈ res := by
  refine ⟨rfl, List.Sublist.refl _, ?_⟩
  rintro ⟨res, hres, -⟩
  exact Option.noConfusion ((rfl :
    cexStore7.search_passwords (String.mk ['é', 'x']) = none) ▸ hres)

/-- C7, amended.  When every character of the query and of the stored names
is a single-byte (ASCII) character, `search_passwords` returns a result list
that is a subset of the store, whose every member's lowercased name admits
the lowercased query as an in-order subsequence, that contains every entry of
the store with that property, and that is sorted by lowercased name.  (For
multi-byte characters the search can panic, see the counterexample.) -/
theorem C7_amended_search_ascii (s : PasswordStore) (q : String)
    (hq : ∀ ch ∈ q.data, ch.toNat < 128)
    (hnames : ∀ p ∈ s.passwords, ∀ ch ∈ p.name.data, ch.toNat < 128) :
    ∃ res, s.search_passwords q = some res ∧
      (∀ p ∈ res, p ∈ s.passwords) ∧
      (∀ p ∈ res, (strLower q).data.Sublist (strLower p.name).data) ∧
      (∀ p ∈ s.passwords, (strLower q).data.Sublist (strLower p.name).data →
        p ∈ res) ∧
      res.Pairwise fun a b => lowerNameLe a b = true :=
  search_passwords_ascii_spec s q hq hnames

/-- C7, witness: the amended search contract evaluated on a concrete ASCII
store and query. -/
theorem C7_witness :
    ∃ res, cexStore9.search_passwords (String.mk ['p', 'p']) = some res ∧
      (∀ p ∈ res, p ∈ cexStore9.passwords) ∧
      (∀ p ∈ res, (strLower (String.mk ['p', 'p'])).data.Sublist
        (strLower p.name).data) ∧
      (∀ p ∈ cexStore9.passwords, (strLower (String.mk ['p', 'p'])).data.Sublist
        (strLower p.name).data → p ∈ res) ∧
      res.Pairwise fun a b => lowerNameLe a b = true :=
  C7_amended_search_ascii cexStore9 (String.mk ['p', 'p']) (by decide) (by decide)

/-! ## Claim C8 -/

def pw8 : Password :=
  { name := String.mk ['é', 'a'], username := "u", password := "p",
    created_at := 0, updated_at := 0 }

def cexStore8 : PasswordStore :=
  ((PasswordStore.new cexCrypto "m" saltZeros).add_password pw8).2

/-- C8, counterexample.  The claim states every operation completes and
returns a value.  `search_passwords` on the store holding "éa" with query
"éa" panics (modelled as `none`): after matching the two-byte "é" the loop
slices the name at byte index 1, inside the character. -/
theorem C8_counterexample :
    cexStore8.search_passwords (String.mk ['é', 'a']) = none := rfl

/-- C8, amended.  Every store operation other than `search_passwords` is
total; `search_passwords` completes and returns a value whenever the query
and all stored names consist of single-byte (ASCII) characters, but may
panic on multi-byte input. -/
theorem C8_amended_search_total_ascii (s : PasswordStore) (q : String)
    (hq : ∀ ch ∈ q.data, ch.toNat < 128)
    (hnames : ∀ p ∈ s.passwords, ∀ ch ∈ p.name.data, ch.toNat < 128) :
    (s.search_passwords q).isSome = true := by
  obtain ⟨res, hres, -⟩ := search_passwords_ascii_spec s q hq hnames
  rw [hres]
  rfl

/-- C8, witness: totality of search on a concrete ASCII store and query. -/
theorem C8_witness :
    (cexStore9.search_passwords (String.mk ['a', 'p'])).isSome = true :=
  C8_amended_search_total_ascii cexStore9 (String.mk ['a', 'p'])
    (by decide) (by decide)

end Rooster
